import Mathlib

/-!
Shallow embedding of the tagulous model field managers
(`tagulous/models/managers.py`) and tag options
(`tagulous/models/options.py`).

Conventions of the embedding:
* the tag table is a list of records with numeric primary keys;
* Python dicts are modelled as association lists with insertion-order
  semantics (assignment replaces a key in place, otherwise appends);
* a raised exception is modelled with `Except`, the error payload holding
  the state at the moment of the raise (which is the state the caller
  observes after catching the exception);
* machine strings are Lean `String`s; `str.lower` is modelled by folding
  each character with `Char.toLower`.
-/

set_option autoImplicit false

/-- Model of a Python string lowercased with `str.lower` (character-wise
case folding). -/
def pyLower (s : String) : String := ⟨s.data.map Char.toLower⟩

/-- Model of `value.replace('"', '')`: replacing every double quote by the
empty string removes exactly the double quote characters. -/
def stripQuotes (s : String) : String := ⟨s.data.filter (fun c => c ≠ '"')⟩

/-- Modelled from the spec: `tagulous.utils.parse_tags` is not under
`src/`; the spec describes it only as string normalization splitting a tag
edit string into names, so it is modelled as splitting a comma separated
string into nonempty trimmed names. No claim depends on its exact shape. -/
def parse_tags (s : String) : List String :=
  ((s.splitOn ",").map String.trim).filter (fun n => n ≠ "")

/-! ### Python dicts as association lists -/

/-- Dict lookup `d.get(k)`. -/
def dlookup {α : Type} (d : List (String × α)) (k : String) : Option α :=
  (d.find? (fun p => p.1 = k)).map Prod.snd

/-- Dict membership `k in d`. -/
def dhas {α : Type} (d : List (String × α)) (k : String) : Bool :=
  d.any (fun p => p.1 = k)

/-- Dict assignment `d[k] = v`: replace the value in place if the key is
present, otherwise append the new pair. -/
def dinsert {α : Type} (d : List (String × α)) (k : String) (v : α) :
    List (String × α) :=
  if dhas d k then d.map (fun p => if p.1 = k then (k, v) else p)
  else d ++ [(k, v)]

/-- Dict deletion `del d[k]`. -/
def ddel {α : Type} (d : List (String × α)) (k : String) : List (String × α) :=
  d.filter (fun p => p.1 ≠ k)

/-- Build a dict from a list of pairs, as `dict([...])` does. -/
def dfromList {α : Type} (ps : List (String × α)) : List (String × α) :=
  ps.foldl (fun d p => dinsert d p.1 p.2) []

/-! ### The tag table -/

/-- A persisted tag record. `prot` embeds the `protected` flag (`protected`
is reserved in Lean). Modelled from the spec: the tag model itself
(`tagulous.models.TagModel`) is not under `src/`; the spec says the code
"maintains reference counts on tag records", so a record carries a `count`
adjusted by `increment`/`decrement` below, and `objects.create` starts a
record with count 0. -/
structure DBTag where
  pk : Nat
  name : String
  prot : Bool
  count : Int
deriving DecidableEq, Repr

/-- The tag table plus a fresh-pk counter. -/
structure DB where
  tags : List DBTag
  nextPk : Nat
deriving DecidableEq, Repr

/-- An in-memory tag object; `pk = none` models an unsaved instance. -/
structure TagObj where
  pk : Option Nat
  name : String
  prot : Bool
deriving DecidableEq, Repr

/-- The object a query returns for a record. -/
def toObj (r : DBTag) : TagObj := ⟨some r.pk, r.name, r.prot⟩

/-- Fetch a record by primary key. -/
def dbGet (db : DB) (pk : Nat) : Option DBTag :=
  db.tags.find? (fun r => r.pk = pk)

/-- The lookup `objects.get(name=n)` (case sensitive) or
`objects.get(name__iexact=n)` (otherwise), `none` for `DoesNotExist`. -/
def dbFindByName (cs : Bool) (db : DB) (n : String) : Option DBTag :=
  if cs then db.tags.find? (fun r => r.name = n)
  else db.tags.find? (fun r => pyLower r.name = pyLower n)

/-- `objects.create(name=..., protected=...)` (also `tag.save()` on an
unsaved tag): insert a fresh record with count 0. -/
def dbCreate (db : DB) (name : String) (prot : Bool) : DBTag × DB :=
  let r : DBTag := ⟨db.nextPk, name, prot, 0⟩
  (r, ⟨db.tags ++ [r], db.nextPk + 1⟩)

/-- Modelled from the spec: `TagModel.increment` (not under `src/`) adds
one to the usage counter of the record with this pk. -/
def dbIncrement (db : DB) (pk : Nat) : DB :=
  ⟨db.tags.map (fun r => if r.pk = pk then { r with count := r.count + 1 } else r),
   db.nextPk⟩

/-- Modelled from the spec: `TagModel.decrement` (not under `src/`)
subtracts one from the usage counter of the record with this pk. -/
def dbDecrement (db : DB) (pk : Nat) : DB :=
  ⟨db.tags.map (fun r => if r.pk = pk then { r with count := r.count - 1 } else r),
   db.nextPk⟩

/-- Django model equality for the Django versions this code targets: two
tag objects compare equal when their pks compare equal (two unsaved
instances, both with pk `None`, compare equal). -/
def tagEq (a b : TagObj) : Bool := a.pk = b.pk

/-- Python `t in ts` under Django model equality. -/
def tagMem (t : TagObj) (ts : List TagObj) : Bool := ts.any (fun u => tagEq u t)

/-- The tag options the managers consult. `max_count = 0` models the falsy
default (`None`/`0`), for which no limit is enforced. -/
structure MOpts where
  case_sensitive : Bool
  force_lowercase : Bool
  max_count : Nat
deriving DecidableEq, Repr

/-! ### SingleTagManager -/

namespace SingleTagManager

/-- Per-instance manager state. `fk` is the FK attribute of the instance:
`none` when the attribute was never set, `some none` when set to NULL,
`some (some pk)` when pointing at a record. -/
structure State where
  changed : Bool
  tag_name : Option String
  tag_cache : Option TagObj
  removed_tag : Option TagObj
  fk : Option (Option Nat)
deriving DecidableEq, Repr

/-- `get_actual`: what the FK descriptor resolves to (freshly fetched; the
descriptor cache is modelled away because every use either follows a
`flush_actual` or observes the same record). -/
def get_actual (m : State) (db : DB) : Option TagObj :=
  match m.fk with
  | none => none
  | some none => none
  | some (some pk) => (dbGet db pk).map toObj

/-- `get`: the current tag. When changed, a falsy `tag_name` resolves to
no tag; otherwise the name is looked up (case sensitively or not) and, if
absent, a temporary unsaved tag is created and cached. -/
def get (o : MOpts) (m : State) (db : DB) : Option TagObj × State :=
  if m.changed then
    match m.tag_name with
    | none => (none, m)
    | some n =>
      if n = "" then (none, m)
      else
        match dbFindByName o.case_sensitive db n with
        | some r => (some (toObj r), m)
        | none =>
          match m.tag_cache with
          | some c => (some c, m)
          | none =>
            let c : TagObj := ⟨none, n, false⟩
            (some c, { m with tag_cache := some c })
  else (get_actual m db, m)

/-- The values `set` accepts: a falsy value, a string, or a tag object. -/
inductive SetValue where
  | null
  | str (s : String)
  | tag (t : TagObj)
deriving DecidableEq, Repr

/-- The name `set` resolves its argument to: a falsy value gives `''`; a
nonempty string is lowercased when `force_lowercase` and stripped of double
quotes, an empty result giving `None`; a tag object gives its name. -/
def resolve_value (o : MOpts) (v : SetValue) : Option String :=
  match v with
  | .null => some ""
  | .str s =>
    if s = "" then some ""
    else
      let s1 := if o.force_lowercase then pyLower s else s
      let s2 := stripQuotes s1
      if s2 = "" then none else some s2
  | .tag t => some t.name

/-- `set`: record the desired name; if it equals the current `tag_name`
(Python `==`, so `''` and `None` differ) do nothing, otherwise mark changed
and drop the cache. -/
def set (o : MOpts) (m : State) (v : SetValue) : State :=
  let tag_name := resolve_value o v
  if m.tag_name = tag_name then m
  else { m with changed := true, tag_name := tag_name, tag_cache := none }

/-- `pre_save_handler`: raise `ValidationError` when there is no tag and
the field is required; return early when unchanged; otherwise remember the
old actual tag, save the new tag if it has no pk, increment it, store it in
the FK and clear `changed`. Saving the cached temporary tag also updates
the cache (the Python objects are aliases). -/
def pre_save_handler (o : MOpts) (required : Bool) (m : State) (db : DB) :
    Except (State × DB) (State × DB) :=
  let p := get o m db
  let new_tag := p.1
  let m1 := p.2
  if new_tag = none ∧ required = true then .error (m1, db)
  else if m1.changed = false then .ok (m1, db)
  else
    let removed := get_actual m1 db
    match new_tag with
    | none =>
      .ok ({ m1 with fk := some none, removed_tag := removed, changed := false }, db)
    | some t =>
      match t.pk with
      | some pk =>
        let m2 : State :=
          { m1 with fk := some (some pk), removed_tag := removed, changed := false }
        .ok (m2, dbIncrement db pk)
      | none =>
        let pr := dbCreate db t.name t.prot
        let db1 := dbIncrement pr.2 pr.1.pk
        let m2 := if m1.tag_cache = some t then
            { m1 with tag_cache := some (toObj pr.1) } else m1
        let m3 : State :=
          { m2 with fk := some (some pr.1.pk), removed_tag := removed, changed := false }
        .ok (m3, db1)

/-- `post_save_handler`: decrement the removed tag, if any. Note the code
never resets `removed_tag`. -/
def post_save_handler (m : State) (db : DB) : DB :=
  match m.removed_tag with
  | none => db
  | some t =>
    match t.pk with
    | none => db
    | some pk => dbDecrement db pk

/-- `post_delete_handler`: decrement the actual tag, clear the FK, and mark
the manager changed, taking over the old name when no change was pending. -/
def post_delete_handler (m : State) (db : DB) : State × DB :=
  match get_actual m db with
  | none => (m, db)
  | some t =>
    let db1 :=
      match t.pk with
      | some pk => dbDecrement db pk
      | none => db
    let m1 : State := { m with fk := some none }
    let m2 := if m1.changed = false then { m1 with tag_name := some t.name } else m1
    ({ m2 with tag_cache := none, changed := true }, db1)

/-- One save of the owning instance, as the framework drives it: the
pre-save signal runs the pre-save handler, and when it does not raise, the
post-save signal runs the post-save handler. -/
def save_lifecycle (o : MOpts) (required : Bool) (m : State) (db : DB) :
    State × DB :=
  match pre_save_handler o required m db with
  | .error e => e
  | .ok (m1, db1) => (m1, post_save_handler m1 db1)

end SingleTagManager

/-! ### RelatedManagerTagMixin -/

namespace RelatedManagerTagMixin

/-- The in-memory side of the related manager: the internal tag cache and
the changed flag. -/
structure RState where
  tags : List TagObj
  changed : Bool
deriving DecidableEq, Repr

/-- The world the related manager acts on: the tag table and the m2m
relation rows (pks related to this instance). -/
structure Env where
  db : DB
  rel : List Nat
deriving DecidableEq, Repr

/-- `self.all()`: the persisted tags of the relation. -/
def relAll (env : Env) : List TagObj :=
  env.rel.filterMap (fun pk => (dbGet env.db pk).map toObj)

/-- `reload`: refresh the internal cache from the database. -/
def reload (env : Env) : RState := { tags := relAll env, changed := false }

/-- `_ensure_tags_db`: replace each unsaved tag by the matching record
(looked up case sensitively or not) or by a freshly created record. -/
def _ensure_tags_db (o : MOpts) (ts : List TagObj) (db : DB) :
    List TagObj × DB :=
  match ts with
  | [] => ([], db)
  | t :: rest =>
    let p : TagObj × DB :=
      match t.pk with
      | some _ => (t, db)
      | none =>
        match dbFindByName o.case_sensitive db t.name with
        | some r => (toObj r, db)
        | none =>
          let c := dbCreate db t.name false
          (toObj c.1, c.2)
    let q := _ensure_tags_db o rest p.2
    (p.1 :: q.1, q.2)

/-- The framework's m2m `add` (`_old_add`): relate the pks not already
related; an unsaved object cannot be related. -/
def _old_add (env : Env) (ts : List TagObj) : Env :=
  ts.foldl (fun e t =>
    match t.pk with
    | none => e
    | some pk => if pk ∈ e.rel then e else { e with rel := e.rel ++ [pk] }) env

/-- The framework's m2m `remove` (`_old_remove`): unrelate the given pks. -/
def _old_remove (env : Env) (ts : List TagObj) : Env :=
  { env with rel := env.rel.filter (fun pk => ¬ ts.any (fun t => t.pk = some pk)) }

/-- A positional argument of `_add`/`_remove`: a string or a tag object. -/
inductive AddArg where
  | str (s : String)
  | obj (t : TagObj)
deriving DecidableEq, Repr

/-- The argument conversion at the top of `_add`: each string is turned
into a freshly created record (before any other check). -/
def convert_add_args (objs : List AddArg) (db : DB) : List TagObj × DB :=
  match objs with
  | [] => ([], db)
  | .str s :: rest =>
    let c := dbCreate db s false
    let q := convert_add_args rest c.2
    (toObj c.1 :: q.1, q.2)
  | .obj t :: rest =>
    let q := convert_add_args rest db
    (t :: q.1, q.2)

/-- `tag.increment()` over a list of tags (by pk; an unsaved object has no
record to adjust). -/
def incrementAll (db : DB) (ts : List TagObj) : DB :=
  ts.foldl (fun d t => match t.pk with | some pk => dbIncrement d pk | none => d) db

/-- `tag.decrement()` over a list of tags. -/
def decrementAll (db : DB) (ts : List TagObj) : DB :=
  ts.foldl (fun d t => match t.pk with | some pk => dbDecrement d pk | none => d) db

/-- `_add`: convert strings, reload the cache, enforce `max_count` (raise
`ValueError`), then ensure the tags exist, relate them, append them to the
cache and increment them. -/
def _add (o : MOpts) (m : RState) (env : Env) (objs : List AddArg) :
    Except (RState × Env) (RState × Env) :=
  let p := convert_add_args objs env.db
  let new_tags := p.1
  let env1 : Env := { env with db := p.2 }
  let m1 := reload env1
  if o.max_count ≠ 0 ∧ m1.tags.length + new_tags.length > o.max_count then
    .error (m1, env1)
  else
    let q := _ensure_tags_db o new_tags env1.db
    let env2 : Env := { env1 with db := q.2 }
    let env3 := _old_add env2 q.1
    ( .ok ({ m1 with tags := m1.tags ++ new_tags },
           { env3 with db := incrementAll env3.db new_tags }) )

/-- The argument conversion at the top of `_remove`: strings are looked up
by exact name, missing names are skipped. -/
def convert_rm_args (objs : List AddArg) (db : DB) : List TagObj :=
  objs.filterMap (fun a =>
    match a with
    | .str s => (db.tags.find? (fun r => r.name = s)).map toObj
    | .obj t => some t)

/-- `_remove`: convert strings, reload the cache, keep only the tags that
are actually set, drop them from the cache, unrelate them and decrement. -/
def _remove (o : MOpts) (m : RState) (env : Env) (objs : List AddArg) :
    RState × Env :=
  let rm0 := convert_rm_args objs env.db
  let m1 := reload env
  let rm_tags := m1.tags.filter (fun t => tagMem t rm0)
  let m2 : RState := { m1 with tags := m1.tags.filter (fun t => ¬ tagMem t rm_tags) }
  let q := _ensure_tags_db o rm_tags env.db
  let env1 : Env := { env with db := q.2 }
  let env2 := _old_remove env1 q.1
  (m2, { env2 with db := decrementAll env2.db rm_tags })

/-- The first loop of `save`: `self.add(new_tag)` for every desired tag not
in the reloaded cache (`add` having been switched to `_add`). -/
def save_add_loop (o : MOpts) (new_tags : List TagObj) (m : RState) (env : Env) :
    Except (RState × Env) (RState × Env) :=
  match new_tags with
  | [] => .ok (m, env)
  | t :: rest =>
    if tagMem t m.tags then save_add_loop o rest m env
    else
      match _add o m env [AddArg.obj t] with
      | .error e => .error e
      | .ok (m1, env1) => save_add_loop o rest m1 env1

/-- The second loop of `save`: iterate over the snapshot of `self.tags`
taken at loop entry and `self.remove(old_tag)` every tag not desired. -/
def save_remove_loop (o : MOpts) (snapshot keep : List TagObj) (m : RState)
    (env : Env) : RState × Env :=
  match snapshot with
  | [] => (m, env)
  | t :: rest =>
    if tagMem t keep then save_remove_loop o rest keep m env
    else
      let p := _remove o m env [AddArg.obj t]
      save_remove_loop o rest keep p.1 p.2

/-- `save`: return at once when neither changed nor forced; otherwise
ensure the desired tags exist, reload, add the missing ones, remove the
stale ones, and store the ensured tags with `changed = False`. -/
def save (o : MOpts) (force : Bool) (m : RState) (env : Env) :
    Except (RState × Env) (RState × Env) :=
  if m.changed = false ∧ force = false then .ok (m, env)
  else
    let p := _ensure_tags_db o m.tags env.db
    let new_tags := p.1
    let env1 : Env := { env with db := p.2 }
    let m1 := reload env1
    match save_add_loop o new_tags m1 env1 with
    | .error e => .error e
    | .ok (m2, env2) =>
      let q := save_remove_loop o m2.tags new_tags m2 env2
      .ok ({ tags := new_tags, changed := false }, q.2)

/-- The comparison name of `set_tag_list`: the name itself when case
sensitive, its lowercasing otherwise. -/
def cmpName (o : MOpts) (n : String) : String :=
  if o.case_sensitive then n else pyLower n

/-- The first loop of `set_tag_list` over `old_tags`: keep every current
tag whose comparison name is among the new ones (consuming that name), and
flag a change for every current tag that is dropped. -/
def keep_loop (old_tags : List (String × TagObj)) (cmp_new : List (String × String)) :
    List TagObj × List (String × String) × Bool :=
  match old_tags with
  | [] => ([], cmp_new, false)
  | (c, t) :: rest =>
    if dhas cmp_new c then
      let q := keep_loop rest (ddel cmp_new c)
      (t :: q.1, q.2.1, q.2.2)
    else
      let q := keep_loop rest cmp_new
      (q.1, q.2.1, true)

/-- The second loop of `set_tag_list`: resolve each remaining new name to
the matching record or to a fresh unsaved tag. -/
def resolve_new_names (o : MOpts) (db : DB) (names : List String) : List TagObj :=
  names.map (fun n =>
    match dbFindByName o.case_sensitive db n with
    | some r => toObj r
    | none => ⟨none, n, false⟩)

/-- `set_tag_list`: enforce `max_count` (raise `ValueError`), lowercase the
names when forced, diff the current tags against the new names through the
two dicts, and store the result in the internal cache. The database and the
relation are only read. -/
def set_tag_list (o : MOpts) (m : RState) (env : Env) (tag_names : List String) :
    Except (RState × Env) (RState × Env) :=
  if o.max_count ≠ 0 ∧ tag_names.length > o.max_count then .error (m, env)
  else
    let names1 := if o.force_lowercase then tag_names.map pyLower else tag_names
    let old_tags := dfromList (m.tags.map (fun t => (cmpName o t.name, t)))
    let cmp_new := dfromList (names1.map (fun n => (cmpName o n, n)))
    let k := keep_loop old_tags cmp_new
    let remaining := k.2.1.map Prod.snd
    let news := resolve_new_names o env.db remaining
    let changed1 := m.changed || k.2.2 || !remaining.isEmpty
    .ok ({ tags := k.1 ++ news, changed := changed1 }, env)

/-- `set_tag_string`: parse the edit string and pass on to `set_tag_list`. -/
def set_tag_string (o : MOpts) (m : RState) (env : Env) (s : String) :
    Except (RState × Env) (RState × Env) :=
  set_tag_list o m env (parse_tags s)

end RelatedManagerTagMixin

/-! ### TagOptions -/

/-- A value stored in a `TagOptions` attribute. -/
inductive OptValue where
  | str (s : String)
  | strList (l : List String)
  | nat (n : Nat)
  | bool (b : Bool)
deriving DecidableEq, Repr

/-- Modelled from the spec: `tagulous.utils.render_tags` (not under `src/`)
renders tag names back into an edit string; the exact format decides no
claim. -/
def render_tags (v : OptValue) : String :=
  match v with
  | .str s => s
  | .strList l => String.intercalate ", " l
  | .nat n => toString n
  | .bool b => toString b

namespace TagOptions

/-- The `PROPERTIES` list of `options.py`. -/
def PROPERTIES : List String := ["_initial", "initial_string"]

/-- The instance `__dict__` of a `TagOptions` object. The recognized option
names (`constants.OPTION_DEFAULTS`, not under `src/`) are kept as an
explicit parameter `defaults` below, so every statement holds for any
choice of the defaults table. -/
structure State where
  store : List (String × OptValue)
deriving DecidableEq, Repr

/-- The exception kinds attribute access can raise. -/
inductive AttrErr where
  | attributeError
  | keyError
deriving DecidableEq, Repr

/-- The `__setattr__` of `TagOptions`: `initial` is stored as a list with
the string form on `initial_string`; a name in `OPTION_DEFAULTS` is stored;
anything else raises `AttributeError` (payload: the unmodified state). -/
def setattr (defaults : List (String × OptValue)) (st : State) (name : String)
    (value : OptValue) : Except State State :=
  if name = "initial" then
    match value with
    | .str s =>
      .ok ⟨dinsert (dinsert st.store "initial_string" (.str s)) "initial"
            (.strList (parse_tags s))⟩
    | v =>
      .ok ⟨dinsert (dinsert st.store "initial_string" (.str (render_tags v)))
            "initial" v⟩
  else if dhas defaults name then .ok ⟨dinsert st.store name value⟩
  else .error st

/-- Attribute read on a `TagOptions` object: Python finds a stored
attribute first; otherwise `__getattr__` runs: a property name reads the
(missing) `__dict__` entry raising `KeyError`, an unrecognized name raises
`AttributeError`, and a recognized unset name falls back to its default. -/
def getattr (defaults : List (String × OptValue)) (st : State) (name : String) :
    Except AttrErr OptValue :=
  match dlookup st.store name with
  | some v => .ok v
  | none =>
    if name ∈ PROPERTIES then .error .keyError
    else if dhas defaults name then
      match dlookup defaults name with
      | some v => .ok v
      | none => .error .attributeError
    else .error .attributeError

/-- The `__init__` of `TagOptions`: `setattr` for every keyword argument,
starting from an empty `__dict__`. -/
def init (defaults : List (String × OptValue))
    (kwargs : List (String × OptValue)) : Except State State :=
  kwargs.foldlM (fun st p => setattr defaults st p.1 p.2) ⟨[]⟩

/-- `items(with_defaults=False)`: the stored attributes whose names are
recognized options. -/
def items_no_defaults (defaults : List (String × OptValue)) (st : State) :
    List (String × OptValue) :=
  st.store.filter (fun p => dhas defaults p.1)

/-- The `__add__` of `TagOptions`: this object's set options, updated by
the other object's set options, passed to `__init__`. -/
def add (defaults : List (String × OptValue)) (a b : State) : Except State State :=
  let dct0 := dfromList (items_no_defaults defaults a)
  let dct1 := (items_no_defaults defaults b).foldl (fun d p => dinsert d p.1 p.2) dct0
  init defaults dct1

/-- The invariant of claim C10: every stored attribute name is `initial`,
`initial_string`, or a recognized option name. -/
def goodStore (defaults : List (String × OptValue)) (st : State) : Prop :=
  ∀ p ∈ st.store, p.1 = "initial" ∨ p.1 = "initial_string" ∨ dhas defaults p.1 = true

instance (defaults : List (String × OptValue)) (st : State) :
    Decidable (goodStore defaults st) := by
  unfold goodStore; infer_instance

end TagOptions

/-! ## Supporting lemmas -/

theorem find?_map_pk (l : List DBTag) (f : DBTag → DBTag)
    (hf : ∀ r, (f r).pk = r.pk) (p : Nat) :
    (l.map f).find? (fun r => r.pk = p) = (l.find? (fun r => r.pk = p)).map f := by
  induction l with
  | nil => rfl
  | cons a l ih =>
    by_cases h : a.pk = p
    · simp [List.find?_cons, hf, h]
    · simp [List.find?_cons, hf, h, ih]

theorem dbGet_increment (db : DB) (q p : Nat) :
    dbGet (dbIncrement db q) p =
      (dbGet db p).map (fun r => if r.pk = q then { r with count := r.count + 1 } else r) := by
  unfold dbGet dbIncrement
  exact find?_map_pk db.tags _ (fun r => by by_cases h : r.pk = q <;> simp [h]) p

theorem dbGet_decrement (db : DB) (q p : Nat) :
    dbGet (dbDecrement db q) p =
      (dbGet db p).map (fun r => if r.pk = q then { r with count := r.count - 1 } else r) := by
  unfold dbGet dbDecrement
  exact find?_map_pk db.tags _ (fun r => by by_cases h : r.pk = q <;> simp [h]) p

theorem dbGet_pk (db : DB) (p : Nat) (r : DBTag) (h : dbGet db p = some r) :
    r.pk = p := by
  have := List.find?_some h
  simpa using this

theorem dbGet_decrement_self (db : DB) (q : Nat) :
    (dbGet (dbDecrement db q) q).map DBTag.count =
      (dbGet db q).map (fun r => r.count - 1) := by
  rw [dbGet_decrement]
  cases h : dbGet db q with
  | none => rfl
  | some r => simp [dbGet_pk db q r h]

theorem dbGet_decrement_other (db : DB) (q p : Nat) (h : p ≠ q) :
    dbGet (dbDecrement db q) p = dbGet db p := by
  rw [dbGet_decrement]
  cases hg : dbGet db p with
  | none => rfl
  | some r => simp [dbGet_pk db p r hg, h]

theorem dbGet_increment_self (db : DB) (q : Nat) :
    (dbGet (dbIncrement db q) q).map DBTag.count =
      (dbGet db q).map (fun r => r.count + 1) := by
  rw [dbGet_increment]
  cases h : dbGet db q with
  | none => rfl
  | some r => simp [dbGet_pk db q r h]

theorem dbGet_increment_other (db : DB) (q p : Nat) (h : p ≠ q) :
    dbGet (dbIncrement db q) p = dbGet db p := by
  rw [dbGet_increment]
  cases hg : dbGet db p with
  | none => rfl
  | some r => simp [dbGet_pk db p r hg, h]

theorem get_none_eq (o : MOpts) (m : SingleTagManager.State) (db : DB)
    (h : (SingleTagManager.get o m db).1 = none) :
    (SingleTagManager.get o m db).2 = m := by
  unfold SingleTagManager.get at h ⊢
  by_cases hc : m.changed = true
  · simp only [hc, if_true] at h ⊢
    cases htn : m.tag_name with
    | none => simp [htn]
    | some n =>
      simp only [htn] at h ⊢
      by_cases hn : n = ""
      · simp [hn]
      · simp only [hn, if_false] at h ⊢
        cases hf : dbFindByName o.case_sensitive db n with
        | some r => simp [hf] at h
        | none =>
          simp only [hf] at h ⊢
          cases hcach : m.tag_cache with
          | some c => simp [hcach] at h
          | none => simp [hcach] at h
  · simp only [Bool.not_eq_true] at hc
    simp [hc]

/-! ## Claims -/

/-- C2: the claim says that when the field is unchanged neither save
handler modifies any count. The code violates this: `post_save_handler`
never resets `removed_tag`, so after a changed save (tag "a" replaced by
"b", counts correctly becoming a:0, b:1), a second save with no change runs
`post_save_handler` again and decrements "a" a second time, to -1. This
theorem evaluates the embedding on that failing input. -/
theorem C2_unchanged_save_still_decrements :
    (let o : MOpts := ⟨true, false, 0⟩
     let m0 : SingleTagManager.State :=
       ⟨false, some "a", none, none, some (some 1)⟩
     let db0 : DB := ⟨[⟨1, "a", false, 1⟩], 2⟩
     let s1 := SingleTagManager.save_lifecycle o false
       (SingleTagManager.set o m0 (.str "b")) db0
     let s2 := SingleTagManager.save_lifecycle o false s1.1 s1.2
     s1.1.changed = false
       ∧ (dbGet s1.2 1).map DBTag.count = some 0
       ∧ (dbGet s1.2 2).map DBTag.count = some 1
       ∧ (dbGet s2.2 1).map DBTag.count = some (-1)) := by
  decide

/-- C6 counterexample: the claim says `post_delete_handler` marks the
manager changed with the old tag's name. When a change is already pending
(here desired name "x" while tag "a" is stored), the handler keeps the
pending name instead of recording the old tag's name. -/
theorem C6_counterexample_pending_change :
    (let m : SingleTagManager.State := ⟨true, some "x", none, none, some (some 1)⟩
     let db : DB := ⟨[⟨1, "a", false, 1⟩], 2⟩
     (SingleTagManager.get_actual m db).map TagObj.name = some "a"
       ∧ (SingleTagManager.post_delete_handler m db).1.tag_name ≠ some "a"
       ∧ (SingleTagManager.post_delete_handler m db).1.changed = true) := by
  decide

/-- C6 amended: `post_delete_handler` on a stored tag decrements that tag's
count exactly once, clears the stored association, clears the tag cache and
marks the manager changed, recording the old tag's name only when no change
was pending (a pending desired name is kept); with no stored tag it changes
nothing. -/
theorem C6_post_delete_amended (m : SingleTagManager.State) (db : DB) :
    (SingleTagManager.get_actual m db = none →
      SingleTagManager.post_delete_handler m db = (m, db))
    ∧ (∀ t q, SingleTagManager.get_actual m db = some t → t.pk = some q →
        SingleTagManager.post_delete_handler m db =
          ({ m with
              fk := some none
              tag_name := if m.changed = false then some t.name else m.tag_name
              tag_cache := none
              changed := true }, dbDecrement db q)
        ∧ (dbGet (dbDecrement db q) q).map DBTag.count =
            (dbGet db q).map (fun r => r.count - 1)
        ∧ ∀ p, p ≠ q → dbGet (dbDecrement db q) p = dbGet db p) := by
  constructor
  · intro h
    unfold SingleTagManager.post_delete_handler
    simp [h]
  · intro t q ht hq
    refine ⟨?_, dbGet_decrement_self db q, fun p hp => dbGet_decrement_other db q p hp⟩
    unfold SingleTagManager.post_delete_handler
    simp only [ht, hq]
    by_cases hc : m.changed = false <;> simp [hc]

/-- C6 amended witness: a concrete stored tag is decremented and the old
name is recorded. -/
theorem C6_post_delete_amended_witness :
    SingleTagManager.post_delete_handler
        ⟨false, some "a", none, none, some (some 1)⟩ ⟨[⟨1, "a", false, 1⟩], 2⟩ =
      (⟨true, some "a", none, none, some none⟩, ⟨[⟨1, "a", false, 0⟩], 2⟩) := by
  have h := (C6_post_delete_amended
    ⟨false, some "a", none, none, some (some 1)⟩ ⟨[⟨1, "a", false, 1⟩], 2⟩).2
    ⟨some 1, "a", false⟩ 1 (by decide) (by decide)
  rw [h.1]
  decide

/-- C9: `pre_save_handler` raises `ValidationError` whenever the current
tag resolves to `None` and the field is required, whether or not the field
has been changed, and the manager state and the stored association are
untouched at the raise. -/
theorem C9_pre_save_required_error (o : MOpts) (m : SingleTagManager.State)
    (db : DB) (h : (SingleTagManager.get o m db).1 = none) :
    SingleTagManager.pre_save_handler o true m db = .error (m, db) := by
  have h2 := get_none_eq o m db h
  unfold SingleTagManager.pre_save_handler
  simp [h, h2]

theorem get_snd (o : MOpts) (m : SingleTagManager.State) (db : DB) :
    (SingleTagManager.get o m db).2 = m ∨
      ∃ n, m.tag_name = some n ∧
        (SingleTagManager.get o m db).2 = { m with tag_cache := some ⟨none, n, false⟩ } := by
  obtain ⟨c, tn, tc, rt, fk⟩ := m
  cases c
  · left; simp [SingleTagManager.get]
  · cases tn with
    | none => left; simp [SingleTagManager.get]
    | some n =>
      by_cases hn : n = ""
      · left; simp [SingleTagManager.get, hn]
      · cases hf : dbFindByName o.case_sensitive db n with
        | some r => left; simp [SingleTagManager.get, hn, hf]
        | none =>
          cases tc with
          | some cc => left; simp [SingleTagManager.get, hn, hf]
          | none =>
            right
            exact ⟨n, rfl, by simp [SingleTagManager.get, hn, hf]⟩

theorem get_snd_changed (o : MOpts) (m : SingleTagManager.State) (db : DB) :
    (SingleTagManager.get o m db).2.changed = m.changed := by
  rcases get_snd o m db with h | ⟨n, _, h⟩ <;> rw [h]

theorem get_snd_fk (o : MOpts) (m : SingleTagManager.State) (db : DB) :
    (SingleTagManager.get o m db).2.fk = m.fk := by
  rcases get_snd o m db with h | ⟨n, _, h⟩ <;> rw [h]

theorem get_actual_pk (m : SingleTagManager.State) (db : DB) (t : TagObj)
    (h : SingleTagManager.get_actual m db = some t) : ∃ q, t.pk = some q := by
  unfold SingleTagManager.get_actual at h
  match hfk : m.fk with
  | none => rw [hfk] at h; cases h
  | some none => rw [hfk] at h; cases h
  | some (some pk) =>
    rw [hfk] at h
    rcases Option.map_eq_some'.mp h with ⟨r, _, ht⟩
    exact ⟨r.pk, by rw [← ht]; rfl⟩

theorem get_not_changed (o : MOpts) (m : SingleTagManager.State) (db : DB)
    (hc : m.changed = false) :
    SingleTagManager.get o m db = (SingleTagManager.get_actual m db, m) := by
  unfold SingleTagManager.get
  simp [hc]

theorem save_ok_changed_false (o : MOpts) (force : Bool)
    (m m' : RelatedManagerTagMixin.RState) (env env' : RelatedManagerTagMixin.Env)
    (h : RelatedManagerTagMixin.save o force m env = .ok (m', env')) :
    m'.changed = false := by
  unfold RelatedManagerTagMixin.save at h
  split at h
  · next hcond =>
    cases h
    exact hcond.1
  · simp only [] at h
    split at h
    · cases h
    · cases h
      rfl

theorem ensure_pk_isSome (o : MOpts) (ts : List TagObj) (db : DB) :
    ∀ t ∈ (RelatedManagerTagMixin._ensure_tags_db o ts db).1, t.pk.isSome = true := by
  induction ts generalizing db with
  | nil => intro t h; cases h
  | cons a rest ih =>
    intro t h
    unfold RelatedManagerTagMixin._ensure_tags_db at h
    rcases List.mem_cons.mp h with h1 | h1
    · subst h1
      match hpk : a.pk with
      | some q => simp [hpk]
      | none =>
        simp only [hpk]
        cases hf : dbFindByName o.case_sensitive db a.name with
        | some r => simp [hf, toObj]
        | none => simp [hf, toObj]
    · exact ih _ t h1

theorem mem_dinsert {α : Type} (d : List (String × α)) (k : String) (v : α)
    (q : String × α) (h : q ∈ dinsert d k v) : q ∈ d ∨ q = (k, v) := by
  unfold dinsert at h
  split at h
  · rcases List.mem_map.mp h with ⟨p, hp, he⟩
    by_cases hk : p.1 = k
    · right; simp [hk] at he; exact he.symm
    · left; simp [hk] at he; exact he ▸ hp
  · rcases List.mem_append.mp h with h1 | h1
    · exact Or.inl h1
    · right; simpa using h1

theorem mem_dfromList_aux {α : Type} (ps : List (String × α))
    (d : List (String × α)) (q : String × α)
    (h : q ∈ ps.foldl (fun d p => dinsert d p.1 p.2) d) : q ∈ d ∨ q ∈ ps := by
  induction ps generalizing d with
  | nil => exact Or.inl h
  | cons a rest ih =>
    rcases ih (dinsert d a.1 a.2) h with h1 | h1
    · rcases mem_dinsert d a.1 a.2 q h1 with h2 | h2
      · exact Or.inl h2
      · right
        rw [h2]
        exact List.mem_cons.mpr (Or.inl Prod.mk.eta)
    · right; exact List.mem_cons_of_mem a h1

theorem mem_dfromList {α : Type} (ps : List (String × α)) (q : String × α)
    (h : q ∈ dfromList ps) : q ∈ ps := by
  rcases mem_dfromList_aux ps [] q h with h1 | h1
  · cases h1
  · exact h1

theorem keep_loop_fst_mem (old : List (String × TagObj))
    (cmp_new : List (String × String)) (t : TagObj)
    (h : t ∈ (RelatedManagerTagMixin.keep_loop old cmp_new).1) :
    ∃ c, (c, t) ∈ old := by
  induction old generalizing cmp_new with
  | nil => cases h
  | cons a rest ih =>
    unfold RelatedManagerTagMixin.keep_loop at h
    obtain ⟨c, u⟩ := a
    split at h
    · rcases List.mem_cons.mp h with h1 | h1
      · exact ⟨c, by rw [h1]; exact List.mem_cons_self _ _⟩
      · rcases ih _ h1 with ⟨c2, hc2⟩
        exact ⟨c2, List.mem_cons_of_mem _ hc2⟩
    · rcases ih _ h with ⟨c2, hc2⟩
      exact ⟨c2, List.mem_cons_of_mem _ hc2⟩

theorem resolve_new_names_mem (o : MOpts) (db : DB) (names : List String)
    (t : TagObj) (h : t ∈ RelatedManagerTagMixin.resolve_new_names o db names) :
    (∃ r ∈ db.tags, t = toObj r) ∨ (t.pk = none ∧ t.prot = false) := by
  rcases List.mem_map.mp h with ⟨n, _, he⟩
  cases hf : dbFindByName o.case_sensitive db n with
  | some r =>
    left
    refine ⟨r, ?_, ?_⟩
    · unfold dbFindByName at hf
      split at hf <;> exact List.mem_of_find?_eq_some hf
    · rw [← he, hf]
  | none =>
    right
    rw [← he, hf]
    exact ⟨rfl, rfl⟩

/-- C7: re-applying the current state is a no-op: `set` with a value whose
resolved name equals the current `tag_name` changes nothing of the manager
state, and after a successful `save()` a second `save()` without force
returns at once (the first cleared `changed`), performing no operation on
the database or the relation. -/
theorem C7_reapply_noop :
    (∀ (o : MOpts) (m : SingleTagManager.State) (v : SingleTagManager.SetValue),
        SingleTagManager.resolve_value o v = m.tag_name →
        SingleTagManager.set o m v = m)
    ∧ (∀ (o : MOpts) (m m' : RelatedManagerTagMixin.RState)
          (env env' : RelatedManagerTagMixin.Env),
        RelatedManagerTagMixin.save o false m env = .ok (m', env') →
        RelatedManagerTagMixin.save o false m' env' = .ok (m', env')) := by
  constructor
  · intro o m v h
    unfold SingleTagManager.set
    simp [h]
  · intro o m m' env env' h
    have hc := save_ok_changed_false o false m m' env env' h
    unfold RelatedManagerTagMixin.save
    simp [hc]

/-- C7 witness: a changed empty manager saves, and saving again returns the
same state and environment untouched. -/
theorem C7_reapply_noop_witness :
    SingleTagManager.set ⟨true, false, 0⟩ ⟨false, some "a", none, none, none⟩
        (.str "a") = ⟨false, some "a", none, none, none⟩
    ∧ RelatedManagerTagMixin.save ⟨true, false, 0⟩ false ⟨[], false⟩
        ⟨⟨[], 0⟩, []⟩ = .ok (⟨[], false⟩, ⟨⟨[], 0⟩, []⟩) :=
  ⟨C7_reapply_noop.1 ⟨true, false, 0⟩ ⟨false, some "a", none, none, none⟩
      (.str "a") (by decide),
   C7_reapply_noop.2 ⟨true, false, 0⟩ ⟨[], true⟩ ⟨[], false⟩ ⟨⟨[], 0⟩, []⟩
      ⟨⟨[], 0⟩, []⟩ (by rfl)⟩

/-- C3: the setters record desired tags in memory only. `set` leaves the
stored association (`fk`) and `removed_tag` untouched and consults no
database; `set_tag_list` and `set_tag_string` leave the database and the
relation exactly as they were, on success as on raise; a new name with no
matching record becomes a tag object that is either a current tag, a
database-backed object, or unsaved with no pk and `protected=False`; such
a tag is persisted during `pre_save_handler` (single field, which stores a
record with its name and points the association at it) or during `save`
(tag field, after which every internal tag is database backed). -/
theorem C3_setters_memory_only :
    (∀ (o : MOpts) (m : SingleTagManager.State) (v : SingleTagManager.SetValue),
        (SingleTagManager.set o m v).fk = m.fk
        ∧ (SingleTagManager.set o m v).removed_tag = m.removed_tag)
    ∧ (∀ (o : MOpts) (m : RelatedManagerTagMixin.RState)
          (env : RelatedManagerTagMixin.Env) (ns : List String)
          (m' : RelatedManagerTagMixin.RState) (env' : RelatedManagerTagMixin.Env),
        (RelatedManagerTagMixin.set_tag_list o m env ns = .ok (m', env') →
            env' = env)
        ∧ (RelatedManagerTagMixin.set_tag_list o m env ns = .error (m', env') →
            m' = m ∧ env' = env))
    ∧ (∀ (o : MOpts) (m : RelatedManagerTagMixin.RState)
          (env : RelatedManagerTagMixin.Env) (s : String)
          (m' : RelatedManagerTagMixin.RState) (env' : RelatedManagerTagMixin.Env),
        (RelatedManagerTagMixin.set_tag_string o m env s = .ok (m', env') →
            env' = env)
        ∧ (RelatedManagerTagMixin.set_tag_string o m env s = .error (m', env') →
            m' = m ∧ env' = env))
    ∧ (∀ (o : MOpts) (m : RelatedManagerTagMixin.RState)
          (env : RelatedManagerTagMixin.Env) (ns : List String)
          (m' : RelatedManagerTagMixin.RState) (env' : RelatedManagerTagMixin.Env),
        RelatedManagerTagMixin.set_tag_list o m env ns = .ok (m', env') →
        ∀ t ∈ m'.tags, t ∈ m.tags ∨ (∃ r ∈ env.db.tags, t = toObj r)
          ∨ (t.pk = none ∧ t.prot = false))
    ∧ (∀ (o : MOpts) (req : Bool) (m : SingleTagManager.State) (db : DB)
          (t : TagObj) (m' : SingleTagManager.State) (db' : DB),
        (SingleTagManager.get o m db).1 = some t → t.pk = none →
        SingleTagManager.pre_save_handler o req m db = .ok (m', db') →
        ∃ r ∈ db'.tags, r.name = t.name ∧ m'.fk = some (some r.pk))
    ∧ (∀ (o : MOpts) (force : Bool) (m : RelatedManagerTagMixin.RState)
          (env : RelatedManagerTagMixin.Env)
          (m' : RelatedManagerTagMixin.RState) (env' : RelatedManagerTagMixin.Env),
        RelatedManagerTagMixin.save o force m env = .ok (m', env') →
        (m.changed = true ∨ force = true) →
        ∀ t ∈ m'.tags, t.pk.isSome = true) := by
  refine ⟨?_, ?_, ?_, ?_, ?_, ?_⟩
  · intro o m v
    unfold SingleTagManager.set
    simp only []
    split
    · exact ⟨rfl, rfl⟩
    · exact ⟨rfl, rfl⟩
  · intro o m env ns m' env'
    constructor
    · intro h
      unfold RelatedManagerTagMixin.set_tag_list at h
      split at h
      · cases h
      · simp only [] at h
        cases h
        rfl
    · intro h
      unfold RelatedManagerTagMixin.set_tag_list at h
      split at h
      · cases h; exact ⟨rfl, rfl⟩
      · simp only [] at h
        cases h
  · intro o m env s m' env'
    constructor
    · intro h
      unfold RelatedManagerTagMixin.set_tag_string at h
      unfold RelatedManagerTagMixin.set_tag_list at h
      split at h
      · cases h
      · simp only [] at h
        cases h
        rfl
    · intro h
      unfold RelatedManagerTagMixin.set_tag_string at h
      unfold RelatedManagerTagMixin.set_tag_list at h
      split at h
      · cases h; exact ⟨rfl, rfl⟩
      · simp only [] at h
        cases h
  · intro o m env ns m' env' h t ht
    unfold RelatedManagerTagMixin.set_tag_list at h
    split at h
    · cases h
    · simp only [] at h
      cases h
      rcases List.mem_append.mp ht with h1 | h1
      · left
        rcases keep_loop_fst_mem _ _ t h1 with ⟨c, hc⟩
        have := mem_dfromList _ _ hc
        rcases List.mem_map.mp this with ⟨t0, ht0, he⟩
        cases he
        exact ht0
      · right
        exact resolve_new_names_mem _ _ _ t h1
  · intro o req m db t m' db' hget hpk hok
    have hch : m.changed = true := by
      by_contra hc
      have hc' : m.changed = false := by
        cases hcc : m.changed
        · rfl
        · exact absurd hcc hc
      rw [get_not_changed o m db hc'] at hget
      rcases get_actual_pk m db t hget with ⟨q, hq⟩
      rw [hpk] at hq
      cases hq
    have hm1c : (SingleTagManager.get o m db).2.changed = true := by
      rw [get_snd_changed]; exact hch
    unfold SingleTagManager.pre_save_handler at hok
    simp only [] at hok
    rw [hget] at hok
    rw [if_neg (by simp)] at hok
    rw [hm1c] at hok
    rw [if_neg (by simp)] at hok
    simp only [] at hok
    rw [hpk] at hok
    simp only [] at hok
    cases hok
    refine ⟨{ pk := db.nextPk, name := t.name, prot := t.prot, count := 1 }, ?_, rfl, ?_⟩
    · unfold dbIncrement dbCreate
      simp only []
      have hmem : ({ pk := db.nextPk, name := t.name, prot := t.prot, count := 0 } : DBTag)
          ∈ db.tags ++ [{ pk := db.nextPk, name := t.name, prot := t.prot, count := 0 }] := by
        simp
      refine List.mem_map.mpr
        ⟨{ pk := db.nextPk, name := t.name, prot := t.prot, count := 0 }, hmem, ?_⟩
      simp
    · rfl
  · intro o force m env m' env' hok hcf
    unfold RelatedManagerTagMixin.save at hok
    rw [if_neg (by rcases hcf with h | h <;> simp [h])] at hok
    simp only [] at hok
    split at hok
    · cases hok
    · cases hok
      exact fun t ht => ensure_pk_isSome o m.tags env.db t ht

/-- C3 witness: concrete checks of the frame properties and of the unsaved
representation. -/
theorem C3_setters_memory_only_witness :
    (SingleTagManager.set ⟨true, false, 0⟩ ⟨false, none, none, none, some (some 1)⟩
        (.str "b")).fk = some (some 1)
    ∧ (RelatedManagerTagMixin.set_tag_list ⟨true, false, 0⟩ ⟨[], false⟩
        ⟨⟨[], 5⟩, []⟩ ["x"] = .ok (⟨[⟨none, "x", false⟩], true⟩, ⟨⟨[], 5⟩, []⟩) →
        (⟨⟨[], 5⟩, []⟩ : RelatedManagerTagMixin.Env) = ⟨⟨[], 5⟩, []⟩) := by
  constructor
  · exact (C3_setters_memory_only.1 ⟨true, false, 0⟩
      ⟨false, none, none, none, some (some 1)⟩ (.str "b")).1
  · exact fun h => (C3_setters_memory_only.2.1 ⟨true, false, 0⟩ ⟨[], false⟩
      ⟨⟨[], 5⟩, []⟩ ["x"] ⟨[⟨none, "x", false⟩], true⟩ ⟨⟨[], 5⟩, []⟩).1 h

theorem dlookup_isSome_iff {α : Type} (d : List (String × α)) (k : String) :
    (dlookup d k).isSome = true ↔ dhas d k = true := by
  simp [dlookup, dhas, List.find?_isSome, List.any_eq_true]

theorem dlookup_mem {α : Type} (d : List (String × α)) (k : String) (v : α)
    (h : dlookup d k = some v) : (k, v) ∈ d := by
  unfold dlookup at h
  rcases Option.map_eq_some'.mp h with ⟨p, hp, he⟩
  have hk : p.1 = k := by simpa using List.find?_some hp
  have := List.mem_of_find?_eq_some hp
  have hpe : p = (k, v) := by
    obtain ⟨a, b⟩ := p
    simp only at hk he
    rw [hk, he]
  rw [← hpe]
  exact this

theorem setattr_preserves (defaults : List (String × OptValue))
    (st st' : TagOptions.State) (n : String) (v : OptValue)
    (hg : TagOptions.goodStore defaults st)
    (h : TagOptions.setattr defaults st n v = .ok st') :
    TagOptions.goodStore defaults st' := by
  unfold TagOptions.setattr at h
  split at h
  · next hn =>
    subst hn
    have hcore : ∀ (w w2 : OptValue) (q : String × OptValue),
        q ∈ dinsert (dinsert st.store "initial_string" w) "initial" w2 →
        q.1 = "initial" ∨ q.1 = "initial_string" ∨ dhas defaults q.1 = true := by
      intro w w2 q hq
      rcases mem_dinsert _ _ _ q hq with hq1 | hq1
      · rcases mem_dinsert _ _ _ q hq1 with hq2 | hq2
        · exact hg q hq2
        · right; left; rw [hq2]
      · left; rw [hq1]
    split at h <;> (cases h; intro q hq; exact hcore _ _ q hq)
  · split at h
    · next hd =>
      cases h
      intro q hq
      rcases mem_dinsert _ _ _ q hq with hq1 | hq1
      · exact hg q hq1
      · right; right; rw [hq1]; exact hd
    · cases h

theorem init_aux (defaults : List (String × OptValue))
    (ps : List (String × OptValue)) :
    ∀ (st st' : TagOptions.State), TagOptions.goodStore defaults st →
      ps.foldlM (fun st p => TagOptions.setattr defaults st p.1 p.2) st = .ok st' →
      TagOptions.goodStore defaults st' := by
  induction ps with
  | nil =>
    intro st st' hg h
    simp only [List.foldlM_nil] at h
    cases h
    exact hg
  | cons p rest ih =>
    intro st st' hg h
    simp only [List.foldlM_cons] at h
    cases hs : TagOptions.setattr defaults st p.1 p.2 with
    | error e => rw [hs] at h; simp [Bind.bind, Except.bind] at h
    | ok st1 =>
      rw [hs] at h
      simp only [Bind.bind, Except.bind] at h
      exact ih st1 st' (setattr_preserves defaults st st1 p.1 p.2 hg hs) h

theorem init_total (defaults : List (String × OptValue))
    (ps : List (String × OptValue)) :
    ∀ (st : TagOptions.State), (∀ p ∈ ps, dhas defaults p.1 = true) →
      ∃ st', ps.foldlM (fun st p => TagOptions.setattr defaults st p.1 p.2) st = .ok st' := by
  induction ps with
  | nil => intro st _; exact ⟨st, rfl⟩
  | cons p rest ih =>
    intro st hall
    have hstep : ∃ st1, TagOptions.setattr defaults st p.1 p.2 = .ok st1 := by
      unfold TagOptions.setattr
      split
      · split
        · exact ⟨_, rfl⟩
        · exact ⟨_, rfl⟩
      · rw [if_pos (hall p (List.mem_cons_self _ _))]
        exact ⟨_, rfl⟩
    rcases hstep with ⟨st1, hs⟩
    rcases ih st1 (fun q hq => hall q (List.mem_cons_of_mem _ hq)) with ⟨st', h'⟩
    refine ⟨st', ?_⟩
    simp only [List.foldlM_cons, hs, Bind.bind, Except.bind]
    exact h'

/-- C10: a `TagOptions` object stores only recognized names, preserved by
`__init__`, `__setattr__` and `__add__`; setting a name that is neither
`initial` nor a recognized option raises `AttributeError` storing nothing;
reading a recognized name always succeeds with the stored value or the
default; reading any other name than `_initial` and `initial_string`
raises `AttributeError`. The defaults table is any table that, like the
real `OPTION_DEFAULTS`, contains `initial` and does not contain the two
property names. -/
theorem C10_options_invariant (defaults : List (String × OptValue))
    (hInit : dhas defaults "initial" = true)
    (hP1 : dhas defaults "_initial" = false)
    (hP2 : dhas defaults "initial_string" = false) :
    (∀ kwargs st, TagOptions.init defaults kwargs = .ok st →
        TagOptions.goodStore defaults st)
    ∧ (∀ st n v st', TagOptions.goodStore defaults st →
        TagOptions.setattr defaults st n v = .ok st' →
        TagOptions.goodStore defaults st')
    ∧ (∀ st n v, n ≠ "initial" → dhas defaults n = false →
        TagOptions.setattr defaults st n v = .error st)
    ∧ (∀ st n v st', TagOptions.setattr defaults st n v = .error st' →
        n ≠ "initial" ∧ dhas defaults n = false ∧ st' = st)
    ∧ (∀ st n, dhas defaults n = true →
        ∃ v, TagOptions.getattr defaults st n = .ok v
          ∧ (dlookup st.store n = some v
             ∨ (dlookup st.store n = none ∧ dlookup defaults n = some v)))
    ∧ (∀ st n, TagOptions.goodStore defaults st → dhas defaults n = false →
        n ≠ "_initial" → n ≠ "initial_string" →
        TagOptions.getattr defaults st n = .error .attributeError)
    ∧ (∀ a b, ∃ st', TagOptions.add defaults a b = .ok st'
        ∧ TagOptions.goodStore defaults st') := by
  have hgood_empty : TagOptions.goodStore defaults ⟨[]⟩ := by
    intro q hq; cases hq
  refine ⟨?_, ?_, ?_, ?_, ?_, ?_, ?_⟩
  · intro kwargs st h
    exact init_aux defaults kwargs ⟨[]⟩ st hgood_empty h
  · intro st n v st' hg h
    exact setattr_preserves defaults st st' n v hg h
  · intro st n v hn hd
    unfold TagOptions.setattr
    rw [if_neg hn, if_neg (by rw [hd]; exact Bool.false_ne_true)]
  · intro st n v st' h
    unfold TagOptions.setattr at h
    split at h
    · split at h <;> cases h
    · split at h
      · cases h
      · next hn hd =>
        cases h
        refine ⟨hn, ?_, rfl⟩
        cases hdd : dhas defaults n
        · rfl
        · exact absurd hdd hd
  · intro st n hd
    unfold TagOptions.getattr
    cases hs : dlookup st.store n with
    | some v => exact ⟨v, rfl, Or.inl rfl⟩
    | none =>
      have hnp : ¬ n ∈ TagOptions.PROPERTIES := by
        intro hmem
        unfold TagOptions.PROPERTIES at hmem
        rcases List.mem_cons.mp hmem with h1 | h1
        · rw [h1] at hd; rw [hd] at hP1; cases hP1
        · rcases List.mem_cons.mp h1 with h2 | h2
          · rw [h2] at hd; rw [hd] at hP2; cases hP2
          · cases h2
      rw [if_neg hnp, if_pos hd]
      have hsome : (dlookup defaults n).isSome = true :=
        (dlookup_isSome_iff defaults n).mpr hd
      cases hdl : dlookup defaults n with
      | none => rw [hdl] at hsome; cases hsome
      | some v => exact ⟨v, rfl, Or.inr ⟨rfl, rfl⟩⟩
  · intro st n hg hd hn1 hn2
    have hs : dlookup st.store n = none := by
      cases hs : dlookup st.store n with
      | none => rfl
      | some v =>
        have hmem := dlookup_mem st.store n v hs
        rcases hg (n, v) hmem with h1 | h1 | h1
        · simp only at h1
          rw [h1] at hd; rw [hd] at hInit; cases hInit
        · exact absurd h1 hn2
        · rw [h1] at hd; cases hd
    unfold TagOptions.getattr
    rw [hs]
    have hnp : ¬ n ∈ TagOptions.PROPERTIES := by
      intro hmem
      unfold TagOptions.PROPERTIES at hmem
      rcases List.mem_cons.mp hmem with h1 | h1
      · exact hn1 h1
      · rcases List.mem_cons.mp h1 with h2 | h2
        · exact hn2 h2
        · cases h2
    rw [if_neg hnp, if_neg (by rw [hd]; exact Bool.false_ne_true)]
  · intro a b
    have hkeys : ∀ p ∈ ((TagOptions.items_no_defaults defaults b).foldl
        (fun d p => dinsert d p.1 p.2)
        (dfromList (TagOptions.items_no_defaults defaults a))),
        dhas defaults p.1 = true := by
      intro p hp
      rcases mem_dfromList_aux _ _ p hp with h1 | h1
      · have := mem_dfromList _ p h1
        exact (List.mem_filter.mp this).2
      · exact (List.mem_filter.mp h1).2
    rcases init_total defaults _ ⟨[]⟩ hkeys with ⟨st', h'⟩
    refine ⟨st', h', init_aux defaults _ ⟨[]⟩ st' hgood_empty h'⟩

/-- C10 witness: a concrete defaults table with `initial`, `case_sensitive`
and `force_lowercase`; setting an unknown name raises, reading an unset
known name gives its default, and adding two option sets succeeds. -/
theorem C10_options_invariant_witness :
    TagOptions.setattr [("initial", .str ""), ("case_sensitive", .bool false)]
        ⟨[]⟩ "bogus" (.bool true) = .error ⟨[]⟩
    ∧ (∃ v, TagOptions.getattr [("initial", .str ""), ("case_sensitive", .bool false)]
        ⟨[]⟩ "case_sensitive" = .ok v
        ∧ (dlookup ([] : List (String × OptValue)) "case_sensitive" = some v
           ∨ (dlookup ([] : List (String × OptValue)) "case_sensitive" = none
              ∧ dlookup [("initial", OptValue.str ""), ("case_sensitive", OptValue.bool false)]
                  "case_sensitive" = some v))) := by
  have h := C10_options_invariant
    [("initial", .str ""), ("case_sensitive", .bool false)]
    (by decide) (by decide) (by decide)
  exact ⟨h.2.2.1 ⟨[]⟩ "bogus" (.bool true) (by decide) (by decide),
         h.2.2.2.2.1 ⟨[]⟩ "case_sensitive" (by decide)⟩

theorem convert_add_args_spec (objs : List RelatedManagerTagMixin.AddArg) (db : DB) :
    ∃ l, (RelatedManagerTagMixin.convert_add_args objs db).2.tags = db.tags ++ l
      ∧ ∀ r ∈ l, r.count = 0 := by
  induction objs generalizing db with
  | nil => exact ⟨[], by simp [RelatedManagerTagMixin.convert_add_args], by simp⟩
  | cons a rest ih =>
    cases a with
    | str s =>
      rcases ih (dbCreate db s false).2 with ⟨l, hl, hc⟩
      refine ⟨⟨db.nextPk, s, false, 0⟩ :: l, ?_, ?_⟩
      · show (RelatedManagerTagMixin.convert_add_args rest (dbCreate db s false).2).2.tags = _
        rw [hl]
        simp [dbCreate]
      · intro r hr
        rcases List.mem_cons.mp hr with h1 | h1
        · rw [h1]
        · exact hc r h1
    | obj t =>
      rcases ih db with ⟨l, hl, hc⟩
      exact ⟨l, hl, hc⟩

/-- C8: when `max_count` is set, `set_tag_list` raises `ValueError` on more
than `max_count` names before modifying anything, and `_add` raises
`ValueError` when the reloaded persisted count plus the number of added
tags exceeds `max_count`, in which case the relation is untouched and no
usage count changes (the database at the raise is the old one extended
only by the records created for string arguments, all with count 0). -/
theorem C8_max_count_errors :
    (∀ (o : MOpts) (m : RelatedManagerTagMixin.RState)
        (env : RelatedManagerTagMixin.Env) (ns : List String),
      o.max_count ≠ 0 → ns.length > o.max_count →
      RelatedManagerTagMixin.set_tag_list o m env ns = .error (m, env))
    ∧ (∀ (o : MOpts) (m : RelatedManagerTagMixin.RState)
        (env : RelatedManagerTagMixin.Env)
        (objs : List RelatedManagerTagMixin.AddArg),
      o.max_count ≠ 0 →
      (RelatedManagerTagMixin.reload
          ⟨(RelatedManagerTagMixin.convert_add_args objs env.db).2, env.rel⟩).tags.length
        + (RelatedManagerTagMixin.convert_add_args objs env.db).1.length > o.max_count →
      RelatedManagerTagMixin._add o m env objs =
        .error (RelatedManagerTagMixin.reload
            ⟨(RelatedManagerTagMixin.convert_add_args objs env.db).2, env.rel⟩,
          ⟨(RelatedManagerTagMixin.convert_add_args objs env.db).2, env.rel⟩)
      ∧ ∃ l, (RelatedManagerTagMixin.convert_add_args objs env.db).2.tags
            = env.db.tags ++ l ∧ ∀ r ∈ l, r.count = 0) := by
  constructor
  · intro o m env ns hm hl
    unfold RelatedManagerTagMixin.set_tag_list
    rw [if_pos ⟨hm, hl⟩]
  · intro o m env objs hm hover
    constructor
    · unfold RelatedManagerTagMixin._add
      simp only []
      rw [if_pos ⟨hm, hover⟩]
    · exact convert_add_args_spec objs env.db

/-- C8 witness: three names against `max_count = 2` raise, and `_add` of a
string plus an object onto a two-tag relation raises leaving the relation
and all counts alone. -/
theorem C8_max_count_errors_witness :
    RelatedManagerTagMixin.set_tag_list ⟨true, false, 2⟩ ⟨[], false⟩
        ⟨⟨[], 0⟩, []⟩ ["a", "b", "c"] = .error (⟨[], false⟩, ⟨⟨[], 0⟩, []⟩)
    ∧ (RelatedManagerTagMixin._add ⟨true, false, 2⟩
          ⟨[], false⟩
          ⟨⟨[⟨1, "a", false, 1⟩, ⟨2, "b", false, 1⟩], 3⟩, [1, 2]⟩
          [.str "zz", .obj ⟨none, "c", false⟩] =
        .error (RelatedManagerTagMixin.reload
            ⟨(RelatedManagerTagMixin.convert_add_args
                [.str "zz", .obj ⟨none, "c", false⟩]
                ⟨[⟨1, "a", false, 1⟩, ⟨2, "b", false, 1⟩], 3⟩).2, [1, 2]⟩,
          ⟨(RelatedManagerTagMixin.convert_add_args
              [.str "zz", .obj ⟨none, "c", false⟩]
              ⟨[⟨1, "a", false, 1⟩, ⟨2, "b", false, 1⟩], 3⟩).2, [1, 2]⟩)) := by
  constructor
  · exact C8_max_count_errors.1 ⟨true, false, 2⟩ ⟨[], false⟩ ⟨⟨[], 0⟩, []⟩
      ["a", "b", "c"] (by decide) (by decide)
  · exact (C8_max_count_errors.2 ⟨true, false, 2⟩ ⟨[], false⟩
      ⟨⟨[⟨1, "a", false, 1⟩, ⟨2, "b", false, 1⟩], 3⟩, [1, 2]⟩
      [.str "zz", .obj ⟨none, "c", false⟩] (by decide) (by decide)).1

theorem char_ofNat_toNat_valid (n : Nat) (h : n.isValidChar) :
    (Char.ofNat n).toNat = n := by
  unfold Char.ofNat
  rw [dif_pos h]
  unfold Char.ofNatAux Char.toNat
  simp [UInt32.ofNat', UInt32.toNat, BitVec.toNat_ofNatLt]

theorem char_toLower_idem (c : Char) : c.toLower.toLower = c.toLower := by
  unfold Char.toLower
  by_cases h : c.toNat ≥ 65 ∧ c.toNat ≤ 90
  · rw [if_pos h]
    have hval : (c.toNat + 32).isValidChar := Or.inl (by omega)
    have ht : (Char.ofNat (c.toNat + 32)).toNat = c.toNat + 32 :=
      char_ofNat_toNat_valid _ hval
    rw [if_neg (by rw [ht]; omega)]
  · rw [if_neg h, if_neg h]

theorem pyLower_idem (s : String) : pyLower (pyLower s) = pyLower s := by
  unfold pyLower
  apply congrArg String.mk
  show (s.data.map Char.toLower).map Char.toLower = s.data.map Char.toLower
  rw [List.map_map]
  exact List.map_congr_left (fun c _ => char_toLower_idem c)

theorem pyLower_ne_empty (s : String) (h : s ≠ "") : pyLower s ≠ "" := by
  intro he
  apply h
  have h2 : s.data.map Char.toLower = [] := congrArg String.data he
  have h3 : s.data = [] := List.map_eq_nil_iff.mp h2
  cases s
  simp_all

theorem any_congr_bool {α : Type} (l : List α) (p q : α → Bool)
    (h : ∀ a ∈ l, p a = q a) : l.any p = l.any q := by
  induction l with
  | nil => rfl
  | cons a rest ih =>
    simp only [List.any_cons]
    rw [h a (List.mem_cons_self _ _), ih (fun b hb => h b (List.mem_cons_of_mem _ hb))]

theorem dhas_ddel_ne {α : Type} (d : List (String × α)) (k k2 : String)
    (h : k2 ≠ k) : dhas (ddel d k) k2 = dhas d k2 := by
  cases hr : dhas d k2 with
  | true =>
    rcases List.any_eq_true.mp hr with ⟨p, hp, hpk⟩
    apply List.any_eq_true.mpr
    refine ⟨p, List.mem_filter.mpr ⟨hp, ?_⟩, hpk⟩
    have hk2 : p.1 = k2 := of_decide_eq_true hpk
    simp [hk2, h]
  | false =>
    cases hl : dhas (ddel d k) k2 with
    | false => rfl
    | true =>
      exfalso
      rcases List.any_eq_true.mp hl with ⟨p, hp, hpk⟩
      have hpd := (List.mem_filter.mp hp).1
      have hcontra : dhas d k2 = true := by
        unfold dhas
        exact List.any_eq_true.mpr ⟨p, hpd, hpk⟩
      rw [hr] at hcontra
      cases hcontra

theorem any_eq_false_forall {α : Type} (l : List α) (p : α → Bool)
    (h : l.any p = false) : ∀ a ∈ l, p a = false := by
  intro a ha
  cases hp : p a
  · rfl
  · exact absurd (List.any_eq_true.mpr ⟨a, ha, hp⟩) (by rw [h]; exact Bool.false_ne_true)

theorem ddel_not_has {α : Type} (d : List (String × α)) (k : String)
    (h : dhas d k = false) : ddel d k = d := by
  unfold ddel
  apply List.filter_eq_self.mpr
  intro p hp
  have := any_eq_false_forall d _ h p hp
  simpa using this

theorem dhas_dinsert_iff {α : Type} (d : List (String × α)) (k k2 : String)
    (v : α) : dhas (dinsert d k v) k2 = true ↔ (dhas d k2 = true ∨ k2 = k) := by
  constructor
  · intro h
    rcases List.any_eq_true.mp h with ⟨p, hp, hpk⟩
    rcases mem_dinsert d k v p hp with h1 | h1
    · left; exact List.any_eq_true.mpr ⟨p, h1, hpk⟩
    · right
      rw [h1] at hpk
      have hk : k = k2 := by simpa using hpk
      exact hk.symm
  · intro h
    unfold dinsert
    rcases h with h | h
    · rcases List.any_eq_true.mp h with ⟨p, hp, hpk⟩
      split
      · apply List.any_eq_true.mpr
        by_cases hk : p.1 = k
        · exact ⟨(k, v), List.mem_map.mpr ⟨p, hp, by simp [hk]⟩,
            by simp [← hk, hpk]⟩
        · exact ⟨p, List.mem_map.mpr ⟨p, hp, by simp [hk]⟩, hpk⟩
      · exact List.any_eq_true.mpr ⟨p, List.mem_append_left _ hp, hpk⟩
    · subst h
      split
      · next hd =>
        rcases List.any_eq_true.mp hd with ⟨p, hp, hpk⟩
        apply List.any_eq_true.mpr
        refine ⟨(k2, v), List.mem_map.mpr ⟨p, hp, by simp [of_decide_eq_true hpk]⟩, by simp⟩
      · exact List.any_eq_true.mpr ⟨(k2, v), List.mem_append_right _ (by simp), by simp⟩

theorem dhas_foldl_dinsert {α : Type} (ps : List (String × α)) (k : String) :
    ∀ d, dhas (ps.foldl (fun d p => dinsert d p.1 p.2) d) k = true ↔
      (dhas d k = true ∨ ∃ p ∈ ps, p.1 = k) := by
  induction ps with
  | nil => intro d; simp
  | cons a rest ih =>
    intro d
    simp only [List.foldl_cons]
    rw [ih]
    constructor
    · intro h
      rcases h with h | h
      · rcases (dhas_dinsert_iff d a.1 k a.2).mp h with h1 | h1
        · exact Or.inl h1
        · exact Or.inr ⟨a, List.mem_cons_self _ _, h1.symm⟩
      · exact Or.inr (by rcases h with ⟨p, hp, hpk⟩; exact ⟨p, List.mem_cons_of_mem _ hp, hpk⟩)
    · intro h
      rcases h with h | ⟨p, hp, hpk⟩
      · exact Or.inl ((dhas_dinsert_iff d a.1 k a.2).mpr (Or.inl h))
      · rcases List.mem_cons.mp hp with h1 | h1
        · exact Or.inl ((dhas_dinsert_iff d a.1 k a.2).mpr (Or.inr (by rw [← h1]; exact hpk.symm)))
        · exact Or.inr ⟨p, h1, hpk⟩

theorem dhas_dfromList {α : Type} (ps : List (String × α)) (k : String) :
    dhas (dfromList ps) k = true ↔ ∃ p ∈ ps, p.1 = k := by
  unfold dfromList
  rw [dhas_foldl_dinsert]
  simp [dhas]

theorem foldl_dinsert_fresh {α : Type} (ps : List (String × α)) :
    ∀ d, (∀ p ∈ ps, dhas d p.1 = false) → (ps.map Prod.fst).Nodup →
      ps.foldl (fun d p => dinsert d p.1 p.2) d = d ++ ps := by
  induction ps with
  | nil => intro d _ _; simp
  | cons a rest ih =>
    intro d hfresh hnd
    simp only [List.foldl_cons]
    have hda : dhas d a.1 = false := hfresh a (List.mem_cons_self _ _)
    have hins : dinsert d a.1 a.2 = d ++ [a] := by
      unfold dinsert
      rw [if_neg (by rw [hda]; exact Bool.false_ne_true)]
    rw [hins]
    have hnd2 : (rest.map Prod.fst).Nodup := (List.nodup_cons.mp (by simpa using hnd)).2
    have hax : a.1 ∉ rest.map Prod.fst := (List.nodup_cons.mp (by simpa using hnd)).1
    have hfresh2 : ∀ p ∈ rest, dhas (d ++ [a]) p.1 = false := by
      intro p hp
      have h1 : dhas d p.1 = false := hfresh p (List.mem_cons_of_mem _ hp)
      unfold dhas at h1 ⊢
      rw [List.any_append, h1]
      simp only [List.any_cons, List.any_nil, Bool.or_false, Bool.false_or]
      by_cases he : a.1 = p.1
      · exact absurd (he ▸ List.mem_map_of_mem Prod.fst hp) hax
      · simpa using he
    rw [ih (d ++ [a]) hfresh2 hnd2, List.append_assoc]
    rfl

theorem dfromList_self {α : Type} (ps : List (String × α))
    (h : (ps.map Prod.fst).Nodup) : dfromList ps = ps := by
  unfold dfromList
  rw [foldl_dinsert_fresh ps [] (fun p _ => rfl) h]
  rfl

theorem keep_loop_spec (old : List (String × TagObj)) :
    ∀ cmp_new, (old.map Prod.fst).Nodup →
      RelatedManagerTagMixin.keep_loop old cmp_new =
        ((old.filter (fun p => dhas cmp_new p.1)).map Prod.snd,
         cmp_new.filter (fun q => !((old.map Prod.fst).contains q.1)),
         old.any (fun p => !(dhas cmp_new p.1))) := by
  induction old with
  | nil =>
    intro cmp_new _
    unfold RelatedManagerTagMixin.keep_loop
    simp
  | cons a rest ih =>
    intro cmp_new hnd
    obtain ⟨c, t⟩ := a
    have hnd' : (rest.map Prod.fst).Nodup := (List.nodup_cons.mp (by simpa using hnd)).2
    have hcx : c ∉ rest.map Prod.fst := (List.nodup_cons.mp (by simpa using hnd)).1
    have hne : ∀ p ∈ rest, p.1 ≠ c := by
      intro p hp he
      exact hcx (he ▸ List.mem_map_of_mem Prod.fst hp)
    unfold RelatedManagerTagMixin.keep_loop
    by_cases h : dhas cmp_new c = true
    · rw [if_pos h, ih (ddel cmp_new c) hnd']
      refine Prod.ext ?_ (Prod.ext ?_ ?_)
      · show t :: (rest.filter fun p => dhas (ddel cmp_new c) p.1).map Prod.snd = _
        rw [List.filter_congr (fun p hp => dhas_ddel_ne cmp_new c p.1 (hne p hp))]
        simp [List.filter_cons, h]
      · show (ddel cmp_new c).filter (fun q => !((rest.map Prod.fst).contains q.1)) = _
        unfold ddel
        rw [List.filter_filter]
        apply List.filter_congr
        intro q _
        simp only [List.map_cons, List.contains_cons]
        by_cases hq : q.1 = c <;> simp [hq]
      · show rest.any (fun p => !(dhas (ddel cmp_new c) p.1)) = _
        rw [any_congr_bool rest _ _
          (fun p hp => by rw [dhas_ddel_ne cmp_new c p.1 (hne p hp)])]
        simp [List.any_cons, h]
    · rw [if_neg h, ih cmp_new hnd']
      have hfalse : dhas cmp_new c = false := by
        cases hc : dhas cmp_new c
        · rfl
        · exact absurd hc h
      refine Prod.ext ?_ (Prod.ext ?_ ?_)
      · show (rest.filter fun p => dhas cmp_new p.1).map Prod.snd = _
        simp [List.filter_cons, hfalse]
      · show cmp_new.filter (fun q => !((rest.map Prod.fst).contains q.1)) = _
        apply List.filter_congr
        intro q hq
        simp only [List.map_cons, List.contains_cons]
        have hqc : (q.1 == c) = false := by
          by_cases he : q.1 = c
          · exfalso
            apply absurd _ h
            exact List.any_eq_true.mpr ⟨q, hq, by simpa using he⟩
          · simpa using he
        rw [hqc]
        simp
      · show true = _
        simp [List.any_cons, hfalse]

theorem contains_true_iff_mem {α : Type} [BEq α] [LawfulBEq α] (l : List α)
    (a : α) : l.contains a = true ↔ a ∈ l := by
  simp [List.contains_eq_any_beq, List.any_eq_true, eq_comm]

theorem set_tag_list_keep_iff (o : MOpts) (m : RelatedManagerTagMixin.RState)
    (env : RelatedManagerTagMixin.Env) (ns : List String)
    (m' : RelatedManagerTagMixin.RState) (env' : RelatedManagerTagMixin.Env)
    (hcs : o.case_sensitive = false)
    (hnd : (m.tags.map (fun t => pyLower t.name)).Nodup)
    (hok : RelatedManagerTagMixin.set_tag_list o m env ns = .ok (m', env'))
    (t : TagObj) (ht : t ∈ m.tags) :
    t ∈ m'.tags ↔ pyLower t.name ∈
      ((if o.force_lowercase then ns.map pyLower else ns).map pyLower) := by
  unfold RelatedManagerTagMixin.set_tag_list at hok
  split at hok
  · cases hok
  · simp only [] at hok
    cases hok
    simp only [RelatedManagerTagMixin.cmpName, hcs, Bool.false_eq_true, if_false]
    have hkeys : ((m.tags.map (fun t => (pyLower t.name, t))).map Prod.fst)
        = m.tags.map (fun t => pyLower t.name) := by
      rw [List.map_map]; rfl
    have hndk : ((m.tags.map (fun t => (pyLower t.name, t))).map Prod.fst).Nodup := by
      rw [hkeys]; exact hnd
    rw [dfromList_self _ hndk, keep_loop_spec _ _ hndk]
    constructor
    · intro h
      rcases List.mem_append.mp h with h1 | h1
      · rcases List.mem_map.mp h1 with ⟨p, hpf, hsnd⟩
        have hpmem := (List.mem_filter.mp hpf).1
        have hpd := (List.mem_filter.mp hpf).2
        rcases List.mem_map.mp hpmem with ⟨t0, ht0, hpe⟩
        have ht0t : t0 = t := by rw [← hpe] at hsnd; exact hsnd
        subst ht0t
        have hp1 : p.1 = pyLower t0.name := by rw [← hpe]
        rw [hp1] at hpd
        rcases (dhas_dfromList _ _).mp hpd with ⟨q, hq, hq1⟩
        rcases List.mem_map.mp hq with ⟨n, hn, hqe⟩
        refine List.mem_map.mpr ⟨n, hn, ?_⟩
        rw [← hqe] at hq1
        exact hq1
      · exfalso
        rcases List.mem_map.mp h1 with ⟨nv, hnv, hres⟩
        rcases List.mem_map.mp hnv with ⟨q, hqf, hq2⟩
        have hqmem := (List.mem_filter.mp hqf).1
        have hqc := (List.mem_filter.mp hqf).2
        rcases List.mem_map.mp (mem_dfromList _ q hqmem) with ⟨n0, _, hqe⟩
        have hq1 : q.1 = pyLower q.2 := by rw [← hqe]
        have htn : pyLower t.name = pyLower nv := by
          cases hf : dbFindByName o.case_sensitive env.db nv with
          | some r =>
            rw [hf] at hres
            simp only [] at hres
            unfold dbFindByName at hf
            rw [hcs] at hf
            simp only [Bool.false_eq_true, if_false] at hf
            have hpa := List.find?_some hf
            have hprop : pyLower r.name = pyLower nv := by simpa using hpa
            rw [← hres]
            exact hprop
          | none =>
            rw [hf] at hres
            simp only [] at hres
            rw [← hres]
        have hin : q.1 ∈ (m.tags.map (fun t => (pyLower t.name, t))).map Prod.fst := by
          rw [hkeys, hq1, hq2, ← htn]
          exact List.mem_map.mpr ⟨t, ht, rfl⟩
        have hc1 := (contains_true_iff_mem _ _).mpr hin
        rw [hc1] at hqc
        simp at hqc
    · intro h
      rcases List.mem_map.mp h with ⟨n, hn, he⟩
      have hdhas : dhas (dfromList ((if o.force_lowercase then ns.map pyLower
          else ns).map (fun n => (pyLower n, n)))) (pyLower t.name) = true :=
        (dhas_dfromList _ _).mpr ⟨(pyLower n, n), List.mem_map.mpr ⟨n, hn, rfl⟩, he⟩
      apply List.mem_append_left
      exact List.mem_map.mpr ⟨(pyLower t.name, t),
        List.mem_filter.mpr ⟨List.mem_map.mpr ⟨t, ht, rfl⟩, hdhas⟩, rfl⟩

/-- C5: case rules and normalization. With `case_sensitive` off, the name
lookup the managers share matches a record exactly when some record's name
agrees up to lowercasing, and with it on exactly when some name is equal;
`get` hands back a database-backed tag precisely when its lookup matches;
`_ensure_tags_db` reuses a (case-insensitively) matching record and only
otherwise creates one; `set_tag_list` keeps a current tag precisely when
its lowercased name occurs among the lowercased new names; with
`force_lowercase`, `set` and `set_tag_list` see only lowercased input, and
`set` strips double quotes from every string value. -/
theorem C5_case_and_normalization (o : MOpts) :
    (∀ (db : DB) (n : String),
      ((dbFindByName false db n).isSome = true ↔
        ∃ r ∈ db.tags, pyLower r.name = pyLower n))
    ∧ (∀ (db : DB) (n : String),
      ((dbFindByName true db n).isSome = true ↔ ∃ r ∈ db.tags, r.name = n))
    ∧ (∀ (m : SingleTagManager.State) (db : DB) (n : String),
      m.changed = true → m.tag_name = some n → n ≠ "" →
      (∀ c, m.tag_cache = some c → c.pk = none) →
      ∃ t, (SingleTagManager.get o m db).1 = some t
        ∧ t.pk.isSome = (dbFindByName o.case_sensitive db n).isSome)
    ∧ (∀ (n : String) (pr : Bool) (db : DB),
      ((dbFindByName o.case_sensitive db n).isSome = true →
        (RelatedManagerTagMixin._ensure_tags_db o [⟨none, n, pr⟩] db).2 = db)
      ∧ ((dbFindByName o.case_sensitive db n).isSome = false →
        (RelatedManagerTagMixin._ensure_tags_db o [⟨none, n, pr⟩] db).2.tags
          = db.tags ++ [⟨db.nextPk, n, false, 0⟩]))
    ∧ (∀ (m : RelatedManagerTagMixin.RState) (env : RelatedManagerTagMixin.Env)
        (ns : List String) (m' : RelatedManagerTagMixin.RState)
        (env' : RelatedManagerTagMixin.Env),
      o.case_sensitive = false →
      (m.tags.map (fun t => pyLower t.name)).Nodup →
      RelatedManagerTagMixin.set_tag_list o m env ns = .ok (m', env') →
      ∀ t ∈ m.tags, (t ∈ m'.tags ↔ pyLower t.name ∈
        ((if o.force_lowercase then ns.map pyLower else ns).map pyLower)))
    ∧ (∀ s : String, o.force_lowercase = true →
      SingleTagManager.resolve_value o (.str s) =
        SingleTagManager.resolve_value o (.str (pyLower s)))
    ∧ (∀ (s n : String),
      SingleTagManager.resolve_value o (.str s) = some n → '"' ∉ n.data)
    ∧ (∀ (m : RelatedManagerTagMixin.RState) (env : RelatedManagerTagMixin.Env)
        (ns : List String), o.force_lowercase = true →
      RelatedManagerTagMixin.set_tag_list o m env ns =
        RelatedManagerTagMixin.set_tag_list o m env (ns.map pyLower)) := by
  refine ⟨?_, ?_, ?_, ?_, ?_, ?_, ?_, ?_⟩
  · intro db n
    unfold dbFindByName
    simp [List.find?_isSome]
  · intro db n
    unfold dbFindByName
    simp [List.find?_isSome]
  · intro m db n hch hname hne hcache
    unfold SingleTagManager.get
    simp only [hch, hname, reduceIte]
    rw [if_neg hne]
    cases hf : dbFindByName o.case_sensitive db n with
    | some r => exact ⟨toObj r, rfl, by simp [toObj]⟩
    | none =>
      cases hcc : m.tag_cache with
      | some c => exact ⟨c, rfl, by simp [hcache c hcc]⟩
      | none => exact ⟨⟨none, n, false⟩, rfl, by simp⟩
  · intro n pr db
    constructor
    · intro h
      unfold RelatedManagerTagMixin._ensure_tags_db
      cases hf : dbFindByName o.case_sensitive db n with
      | some r => simp [hf, RelatedManagerTagMixin._ensure_tags_db]
      | none => rw [hf] at h; cases h
    · intro h
      unfold RelatedManagerTagMixin._ensure_tags_db
      cases hf : dbFindByName o.case_sensitive db n with
      | some r => rw [hf] at h; cases h
      | none => simp [hf, RelatedManagerTagMixin._ensure_tags_db, dbCreate]
  · intro m env ns m' env' hcs hnd hok t ht
    exact set_tag_list_keep_iff o m env ns m' env' hcs hnd hok t ht
  · intro s hfl
    unfold SingleTagManager.resolve_value
    simp only []
    by_cases hs : s = ""
    · subst hs
      rw [show pyLower "" = "" from rfl]
      simp
    · rw [if_neg hs, if_neg (pyLower_ne_empty s hs)]
      simp only [hfl, reduceIte, pyLower_idem]
  · intro s n h
    have h2 : (if s = "" then some ""
        else
          if stripQuotes (if o.force_lowercase = true then pyLower s else s) = ""
          then none
          else some (stripQuotes
            (if o.force_lowercase = true then pyLower s else s))) = some n := h
    by_cases hs : s = ""
    · rw [if_pos hs] at h2
      cases h2
      simp
    · rw [if_neg hs] at h2
      by_cases hq : stripQuotes (if o.force_lowercase = true then pyLower s else s) = ""
      · rw [if_pos hq] at h2
        cases h2
      · rw [if_neg hq] at h2
        cases h2
        intro hmem
        have hm2 := List.mem_filter.mp hmem
        simp at hm2
  · intro m env ns hfl
    have hmm : (ns.map pyLower).map pyLower = ns.map pyLower := by
      rw [List.map_map]
      exact List.map_congr_left (fun a _ => pyLower_idem a)
    unfold RelatedManagerTagMixin.set_tag_list
    simp only [List.length_map, hfl, reduceIte, hmm]

/-- C5 witness: a case-insensitive `get` finds "Ham" for desired name
"hAM", and with `force_lowercase` resolving "AbC" equals resolving its
lowercasing. -/
theorem C5_case_and_normalization_witness :
    (∃ t, (SingleTagManager.get ⟨false, false, 0⟩
        ⟨true, some "hAM", none, none, none⟩ ⟨[⟨1, "Ham", false, 1⟩], 2⟩).1 = some t
      ∧ t.pk.isSome =
          (dbFindByName false ⟨[⟨1, "Ham", false, 1⟩], 2⟩ "hAM").isSome)
    ∧ SingleTagManager.resolve_value ⟨false, true, 0⟩ (.str "AbC") =
        SingleTagManager.resolve_value ⟨false, true, 0⟩ (.str (pyLower "AbC")) :=
  ⟨(C5_case_and_normalization ⟨false, false, 0⟩).2.2.1
      ⟨true, some "hAM", none, none, none⟩ ⟨[⟨1, "Ham", false, 1⟩], 2⟩ "hAM"
      (by decide) (by decide) (by decide) (by intro c hc; cases hc),
   (C5_case_and_normalization ⟨false, true, 0⟩).2.2.2.2.2.1 "AbC" (by decide)⟩

theorem dinsert_keys {α : Type} (d : List (String × α)) (k : String) (v : α) :
    (dinsert d k v).map Prod.fst = d.map Prod.fst
      ∨ (dinsert d k v).map Prod.fst = d.map Prod.fst ++ [k] := by
  unfold dinsert
  split
  · left
    rw [List.map_map]
    apply List.map_congr_left
    intro p _
    by_cases hp : p.1 = k
    · simp [hp]
    · simp [hp]
  · right
    simp

theorem dinsert_keys_nodup {α : Type} (d : List (String × α)) (k : String)
    (v : α) (h : (d.map Prod.fst).Nodup) : ((dinsert d k v).map Prod.fst).Nodup := by
  rcases dinsert_keys d k v with he | he
  · rw [he]; exact h
  · rw [he]
    unfold dinsert at he
    split at he
    · next hd =>
      exfalso
      rcases List.any_eq_true.mp hd with ⟨p, hp, hpk⟩
      have : ((d.map Prod.fst ++ [k]).length) = (d.map Prod.fst).length := by
        rw [← he]
        simp
      simp at this
    · next hd =>
      apply List.Nodup.append h (by simp)
      intro a ha hb
      simp only [List.mem_singleton] at hb
      subst hb
      rcases List.mem_map.mp ha with ⟨p, hp, hpe⟩
      have hcontra : dhas d a = true := by
        unfold dhas
        exact List.any_eq_true.mpr ⟨p, hp, decide_eq_true hpe⟩
      exact absurd hcontra hd

theorem foldl_dinsert_keys_nodup {α : Type} (ps : List (String × α)) :
    ∀ d, (d.map Prod.fst).Nodup →
      ((ps.foldl (fun d p => dinsert d p.1 p.2) d).map Prod.fst).Nodup := by
  induction ps with
  | nil => intro d h; exact h
  | cons a rest ih =>
    intro d h
    exact ih (dinsert d a.1 a.2) (dinsert_keys_nodup d a.1 a.2 h)

theorem dfromList_keys_nodup {α : Type} (ps : List (String × α)) :
    ((dfromList ps).map Prod.fst).Nodup :=
  foldl_dinsert_keys_nodup ps [] List.nodup_nil

theorem not_isEmpty_iff_exists {α : Type} (l : List α) :
    (!l.isEmpty) = true ↔ ∃ x, x ∈ l := by
  cases l <;> simp

theorem resolve_new_names_cmp (o : MOpts) (db : DB) (names : List String) :
    (RelatedManagerTagMixin.resolve_new_names o db names).map
        (fun t => RelatedManagerTagMixin.cmpName o t.name) =
      names.map (RelatedManagerTagMixin.cmpName o) := by
  unfold RelatedManagerTagMixin.resolve_new_names
  rw [List.map_map]
  apply List.map_congr_left
  intro n _
  simp only [Function.comp_apply]
  cases hf : dbFindByName o.case_sensitive db n with
  | none => rfl
  | some r =>
    unfold dbFindByName at hf
    unfold RelatedManagerTagMixin.cmpName
    cases hcs : o.case_sensitive with
    | true =>
      rw [hcs] at hf
      simp only [reduceIte] at hf
      have hrn : r.name = n := by simpa using List.find?_some hf
      simp [hrn, toObj]
    | false =>
      rw [hcs] at hf
      simp only [Bool.false_eq_true, if_false] at hf
      have hrn : pyLower r.name = pyLower n := by simpa using List.find?_some hf
      simp [toObj, hrn]

theorem set_tag_list_core (o : MOpts) (tags : List TagObj) (db : DB)
    (ns1 : List String)
    (hnd : (tags.map (fun t => RelatedManagerTagMixin.cmpName o t.name)).Nodup) :
    (let ps := tags.map (fun t => (RelatedManagerTagMixin.cmpName o t.name, t))
     let cmp_new := dfromList (ns1.map (fun n => (RelatedManagerTagMixin.cmpName o n, n)))
     let k := RelatedManagerTagMixin.keep_loop (dfromList ps) cmp_new
     let news := RelatedManagerTagMixin.resolve_new_names o db (k.2.1.map Prod.snd)
     (∀ t ∈ tags, RelatedManagerTagMixin.cmpName o t.name ∈
         ns1.map (RelatedManagerTagMixin.cmpName o) → t ∈ k.1 ++ news)
     ∧ ((k.1 ++ news).map (fun t => RelatedManagerTagMixin.cmpName o t.name)).Nodup
     ∧ (∀ t ∈ k.1 ++ news, t ∉ tags →
         ((∃ r ∈ db.tags, t = toObj r)
           ∨ (t.pk = none ∧ t.prot = false ∧ t.name ∈ ns1)))
     ∧ ((k.2.2 || !(k.2.1.map Prod.snd).isEmpty) = true ↔
         ((∃ t ∈ tags, RelatedManagerTagMixin.cmpName o t.name ∉
             ns1.map (RelatedManagerTagMixin.cmpName o))
          ∨ (∃ c ∈ ns1.map (RelatedManagerTagMixin.cmpName o),
             c ∉ tags.map (fun t => RelatedManagerTagMixin.cmpName o t.name))))) := by
  simp only []
  have hkeys : ((tags.map (fun t => (RelatedManagerTagMixin.cmpName o t.name, t))).map
      Prod.fst) = tags.map (fun t => RelatedManagerTagMixin.cmpName o t.name) := by
    rw [List.map_map]; rfl
  have hndk : ((tags.map (fun t => (RelatedManagerTagMixin.cmpName o t.name, t))).map
      Prod.fst).Nodup := by
    rw [hkeys]; exact hnd
  have hpair2 : ∀ q ∈ dfromList (ns1.map (fun n =>
      (RelatedManagerTagMixin.cmpName o n, n))),
      q.1 = RelatedManagerTagMixin.cmpName o q.2 ∧ q.2 ∈ ns1 := by
    intro q hq
    rcases List.mem_map.mp (mem_dfromList _ q hq) with ⟨n, hn, he⟩
    subst he
    exact ⟨rfl, hn⟩
  rw [dfromList_self _ hndk, keep_loop_spec _ _ hndk]
  simp only []
  refine ⟨?_, ?_, ?_, ?_⟩
  · intro t ht hc
    rcases List.mem_map.mp hc with ⟨n, hn, hceq⟩
    have hdhas : dhas (dfromList (ns1.map (fun n =>
        (RelatedManagerTagMixin.cmpName o n, n))))
        (RelatedManagerTagMixin.cmpName o t.name) = true :=
      (dhas_dfromList _ _).mpr
        ⟨(RelatedManagerTagMixin.cmpName o n, n), List.mem_map.mpr ⟨n, hn, rfl⟩, hceq⟩
    apply List.mem_append_left
    exact List.mem_map.mpr ⟨(RelatedManagerTagMixin.cmpName o t.name, t),
      List.mem_filter.mpr ⟨List.mem_map.mpr ⟨t, ht, rfl⟩, hdhas⟩, rfl⟩
  · rw [List.map_append]
    apply List.Nodup.append
    · rw [List.map_map]
      rw [List.map_congr_left (g := Prod.fst) ?_]
      · exact hndk.sublist ((List.filter_sublist _).map Prod.fst)
      · intro p hp
        have hpm := (List.mem_filter.mp hp).1
        rcases List.mem_map.mp hpm with ⟨t0, _, he⟩
        subst he
        rfl
    · rw [resolve_new_names_cmp, List.map_map]
      rw [List.map_congr_left (g := Prod.fst) ?_]
      · exact (dfromList_keys_nodup _).sublist ((List.filter_sublist _).map Prod.fst)
      · intro q hq
        have hqm := (List.mem_filter.mp hq).1
        exact ((hpair2 q hqm).1).symm
    · intro a ha hb
      rw [List.map_map] at ha
      have haps : a ∈ (tags.map (fun t =>
          (RelatedManagerTagMixin.cmpName o t.name, t))).map Prod.fst := by
        rcases List.mem_map.mp ha with ⟨p, hp, he⟩
        have hpm := (List.mem_filter.mp hp).1
        rcases List.mem_map.mp hpm with ⟨t0, ht0, he2⟩
        subst he2
        exact List.mem_map.mpr ⟨(RelatedManagerTagMixin.cmpName o t0.name, t0),
          List.mem_map.mpr ⟨t0, ht0, rfl⟩, he⟩
      rw [resolve_new_names_cmp, List.map_map] at hb
      rcases List.mem_map.mp hb with ⟨q, hq, he⟩
      have hqc := (List.mem_filter.mp hq).2
      have hqm := (List.mem_filter.mp hq).1
      have ha2 : q.1 = a := by
        rw [← he]
        exact (hpair2 q hqm).1
    -- a is both a kept key and a remaining key: contradiction with the filter
      rw [ha2] at hqc
      have hc1 := (contains_true_iff_mem _ _).mpr haps
      rw [hc1] at hqc
      simp at hqc
  · intro t htm htn
    rcases List.mem_append.mp htm with h1 | h1
    · exfalso
      rcases List.mem_map.mp h1 with ⟨p, hp, hsnd⟩
      have hpm := (List.mem_filter.mp hp).1
      rcases List.mem_map.mp hpm with ⟨t0, ht0, he⟩
      subst he
      exact htn (hsnd ▸ ht0)
    · rcases List.mem_map.mp h1 with ⟨nv, hnv, hres⟩
      rcases List.mem_map.mp hnv with ⟨q, hq, hq2⟩
      have hqm := (List.mem_filter.mp hq).1
      have hnv1 : nv ∈ ns1 := hq2 ▸ (hpair2 q hqm).2
      cases hf : dbFindByName o.case_sensitive db nv with
      | some r =>
        rw [hf] at hres
        left
        refine ⟨r, ?_, hres.symm⟩
        unfold dbFindByName at hf
        split at hf <;> exact List.mem_of_find?_eq_some hf
      | none =>
        rw [hf] at hres
        right
        rw [← hres]
        exact ⟨rfl, rfl, hnv1⟩
  · rw [Bool.or_eq_true]
    constructor
    · intro h
      rcases h with h | h
      · left
        rcases List.any_eq_true.mp h with ⟨p, hp, hpd⟩
        rcases List.mem_map.mp hp with ⟨t0, ht0, he⟩
        subst he
        refine ⟨t0, ht0, ?_⟩
        intro hcm
        rcases List.mem_map.mp hcm with ⟨n, hn, hceq⟩
        have : dhas (dfromList (ns1.map (fun n =>
            (RelatedManagerTagMixin.cmpName o n, n))))
            (RelatedManagerTagMixin.cmpName o t0.name) = true :=
          (dhas_dfromList _ _).mpr
            ⟨(RelatedManagerTagMixin.cmpName o n, n),
             List.mem_map.mpr ⟨n, hn, rfl⟩, hceq⟩
        rw [this] at hpd
        simp at hpd
      · right
        rcases (not_isEmpty_iff_exists _).mp h with ⟨nv, hnv⟩
        rcases List.mem_map.mp hnv with ⟨q, hq, hq2⟩
        have hqm := (List.mem_filter.mp hq).1
        have hqc := (List.mem_filter.mp hq).2
        refine ⟨q.1, ?_, ?_⟩
        · rw [(hpair2 q hqm).1]
          exact List.mem_map.mpr ⟨q.2, (hpair2 q hqm).2, rfl⟩
        · intro hmem
          have hc1 := (contains_true_iff_mem
            ((tags.map (fun t => (RelatedManagerTagMixin.cmpName o t.name, t))).map
              Prod.fst) q.1).mpr (by rw [hkeys]; exact hmem)
          rw [hc1] at hqc
          simp at hqc
    · intro h
      rcases h with ⟨t0, ht0, hct⟩ | ⟨c, hc, hcn⟩
      · left
        apply List.any_eq_true.mpr
        refine ⟨(RelatedManagerTagMixin.cmpName o t0.name, t0),
          List.mem_map.mpr ⟨t0, ht0, rfl⟩, ?_⟩
        simp only [Bool.not_eq_true']
        cases hd : dhas (dfromList (ns1.map (fun n =>
            (RelatedManagerTagMixin.cmpName o n, n))))
            (RelatedManagerTagMixin.cmpName o t0.name) with
        | false => rfl
        | true =>
          exfalso
          rcases (dhas_dfromList _ _).mp hd with ⟨q, hq, hq1⟩
          rcases List.mem_map.mp hq with ⟨n, hn, he⟩
          subst he
          exact hct (List.mem_map.mpr ⟨n, hn, hq1⟩)
      · right
        apply (not_isEmpty_iff_exists _).mpr
        have hd : dhas (dfromList (ns1.map (fun n =>
            (RelatedManagerTagMixin.cmpName o n, n)))) c = true := by
          rcases List.mem_map.mp hc with ⟨n, hn, hceq⟩
          exact (dhas_dfromList _ _).mpr
            ⟨(RelatedManagerTagMixin.cmpName o n, n),
             List.mem_map.mpr ⟨n, hn, rfl⟩, hceq⟩
        rcases List.any_eq_true.mp hd with ⟨q, hq, hq1⟩
        have hq1p : q.1 = c := of_decide_eq_true hq1
        refine ⟨q.2, List.mem_map.mpr ⟨q, List.mem_filter.mpr ⟨hq, ?_⟩, rfl⟩⟩
        simp only [Bool.not_eq_true']
        cases hcont : ((tags.map (fun t =>
            (RelatedManagerTagMixin.cmpName o t.name, t))).map Prod.fst).contains q.1 with
        | false => rfl
        | true =>
          exfalso
          have := (contains_true_iff_mem _ _).mp hcont
          rw [hkeys, hq1p] at this
          exact hcn this

/-- C4: `set_tag_list` reconciles by dict-diffing. Under distinct
comparison names of the current tags: every current tag whose comparison
name occurs among the new names is kept as the same object; the result has
one tag per comparison name (names collapsing to the same comparison name
produce a single tag); every tag that is not a current one is an existing
database record or a fresh unsaved tag bearing one of the new names; and
`changed` becomes true exactly when a current tag is dropped or a new name
is added, and is otherwise left as it was. -/
theorem C4_set_tag_list_diff (o : MOpts) (m : RelatedManagerTagMixin.RState)
    (env : RelatedManagerTagMixin.Env) (ns : List String)
    (m' : RelatedManagerTagMixin.RState) (env' : RelatedManagerTagMixin.Env)
    (hnd : (m.tags.map (fun t => RelatedManagerTagMixin.cmpName o t.name)).Nodup)
    (hok : RelatedManagerTagMixin.set_tag_list o m env ns = .ok (m', env')) :
    (∀ t ∈ m.tags, RelatedManagerTagMixin.cmpName o t.name ∈
        ((if o.force_lowercase = true then ns.map pyLower else ns).map
          (RelatedManagerTagMixin.cmpName o)) → t ∈ m'.tags)
    ∧ (m'.tags.map (fun t => RelatedManagerTagMixin.cmpName o t.name)).Nodup
    ∧ (∀ t ∈ m'.tags, t ∉ m.tags →
        ((∃ r ∈ env.db.tags, t = toObj r)
          ∨ (t.pk = none ∧ t.prot = false
            ∧ t.name ∈ (if o.force_lowercase = true then ns.map pyLower else ns))))
    ∧ (m'.changed = true ↔ (m.changed = true
        ∨ (∃ t ∈ m.tags, RelatedManagerTagMixin.cmpName o t.name ∉
            ((if o.force_lowercase = true then ns.map pyLower else ns).map
              (RelatedManagerTagMixin.cmpName o)))
        ∨ (∃ c ∈ ((if o.force_lowercase = true then ns.map pyLower else ns).map
            (RelatedManagerTagMixin.cmpName o)),
            c ∉ m.tags.map (fun t => RelatedManagerTagMixin.cmpName o t.name)))) := by
  unfold RelatedManagerTagMixin.set_tag_list at hok
  split at hok
  · cases hok
  · simp only [] at hok
    cases hok
    have hcore := set_tag_list_core o m.tags env.db
      (if o.force_lowercase = true then ns.map pyLower else ns) hnd
    simp only [] at hcore
    refine ⟨hcore.1, hcore.2.1, hcore.2.2.1, ?_⟩
    show (m.changed || _ || _) = true ↔ _
    rw [Bool.or_assoc, Bool.or_eq_true]
    exact or_congr Iff.rfl hcore.2.2.2

/-- C4 witness: from current tag "a" and new names `["a", "B"]`
(case-insensitive), "a" is kept as the same object and `changed` is set
because "B" is added. -/
theorem C4_set_tag_list_diff_witness :
    ((⟨some 1, "a", false⟩ : TagObj) ∈
      (RelatedManagerTagMixin.RState.mk
        [⟨some 1, "a", false⟩, ⟨some 2, "b", false⟩] true).tags)
    ∧ (RelatedManagerTagMixin.RState.mk
        [⟨some 1, "a", false⟩, ⟨some 2, "b", false⟩] true).changed = true := by
  have h := C4_set_tag_list_diff ⟨false, false, 0⟩
    ⟨[⟨some 1, "a", false⟩], false⟩
    ⟨⟨[⟨2, "b", false, 0⟩], 3⟩, []⟩ ["a", "B"]
    ⟨[⟨some 1, "a", false⟩, ⟨some 2, "b", false⟩], true⟩
    ⟨⟨[⟨2, "b", false, 0⟩], 3⟩, []⟩
    (by decide) (by rfl)
  exact ⟨h.1 ⟨some 1, "a", false⟩ (by decide) (by decide),
    h.2.2.2.mpr (Or.inr (Or.inr ⟨"b", by decide, by decide⟩))⟩

theorem dbGet_isSome_iff (db : DB) (p : Nat) :
    (dbGet db p).isSome = true ↔ p ∈ db.tags.map DBTag.pk := by
  unfold dbGet
  rw [List.find?_isSome]
  constructor
  · intro ⟨r, hr, hp⟩
    exact List.mem_map.mpr ⟨r, hr, of_decide_eq_true hp⟩
  · intro h
    rcases List.mem_map.mp h with ⟨r, hr, he⟩
    exact ⟨r, hr, decide_eq_true he⟩

theorem dbIncrement_pks (db : DB) (q : Nat) :
    (dbIncrement db q).tags.map DBTag.pk = db.tags.map DBTag.pk := by
  unfold dbIncrement
  rw [List.map_map]
  apply List.map_congr_left
  intro r _
  by_cases h : r.pk = q <;> simp [h]

theorem dbDecrement_pks (db : DB) (q : Nat) :
    (dbDecrement db q).tags.map DBTag.pk = db.tags.map DBTag.pk := by
  unfold dbDecrement
  rw [List.map_map]
  apply List.map_congr_left
  intro r _
  by_cases h : r.pk = q <;> simp [h]

theorem incrementAll_pks (ts : List TagObj) :
    ∀ db : DB, (RelatedManagerTagMixin.incrementAll db ts).tags.map DBTag.pk
      = db.tags.map DBTag.pk := by
  induction ts with
  | nil => intro db; rfl
  | cons t rest ih =>
    intro db
    unfold RelatedManagerTagMixin.incrementAll
    rw [List.foldl_cons]
    cases hpk : t.pk with
    | none =>
      show (RelatedManagerTagMixin.incrementAll db rest).tags.map DBTag.pk = _
      exact ih db
    | some q =>
      show (RelatedManagerTagMixin.incrementAll (dbIncrement db q) rest).tags.map
        DBTag.pk = _
      rw [ih (dbIncrement db q), dbIncrement_pks]

theorem decrementAll_pks (ts : List TagObj) :
    ∀ db : DB, (RelatedManagerTagMixin.decrementAll db ts).tags.map DBTag.pk
      = db.tags.map DBTag.pk := by
  induction ts with
  | nil => intro db; rfl
  | cons t rest ih =>
    intro db
    unfold RelatedManagerTagMixin.decrementAll
    rw [List.foldl_cons]
    cases hpk : t.pk with
    | none =>
      show (RelatedManagerTagMixin.decrementAll db rest).tags.map DBTag.pk = _
      exact ih db
    | some q =>
      show (RelatedManagerTagMixin.decrementAll (dbDecrement db q) rest).tags.map
        DBTag.pk = _
      rw [ih (dbDecrement db q), dbDecrement_pks]

theorem dbGet_isSome_of_pks_eq (db db2 : DB)
    (hpks : db2.tags.map DBTag.pk = db.tags.map DBTag.pk) (p : Nat)
    (h : (dbGet db p).isSome = true) : (dbGet db2 p).isSome = true := by
  rw [dbGet_isSome_iff] at h ⊢
  rw [hpks]
  exact h

theorem dbGet_mono_append (db : DB) (l : List DBTag) (n2 : Nat) (p : Nat)
    (h : (dbGet db p).isSome = true) :
    (dbGet ⟨db.tags ++ l, n2⟩ p).isSome = true := by
  rw [dbGet_isSome_iff] at h ⊢
  simp only [List.map_append, List.mem_append]
  exact Or.inl h

theorem relAll_pks (rel : List Nat) :
    ∀ db : DB, (∀ q ∈ rel, (dbGet db q).isSome = true) →
      (RelatedManagerTagMixin.relAll ⟨db, rel⟩).map TagObj.pk = rel.map some := by
  induction rel with
  | nil => intro db _; rfl
  | cons q rest ih =>
    intro db h
    unfold RelatedManagerTagMixin.relAll
    rw [List.filterMap_cons]
    cases hg : dbGet db q with
    | none =>
      exfalso
      have := h q (List.mem_cons_self _ _)
      rw [hg] at this
      cases this
    | some r =>
      simp only [Option.map_some']
      show (toObj r :: RelatedManagerTagMixin.relAll ⟨db, rest⟩).map TagObj.pk = _
      have hpk : r.pk = q := dbGet_pk db q r hg
      simp only [List.map_cons]
      rw [show (toObj r).pk = some q from by rw [← hpk]; rfl]
      congr 1
      exact ih db (fun p hp => h p (List.mem_cons_of_mem _ hp))

theorem ensure_cons (o : MOpts) (t : TagObj) (rest : List TagObj) (db : DB) :
    RelatedManagerTagMixin._ensure_tags_db o (t :: rest) db =
      (let p : TagObj × DB :=
        match t.pk with
        | some _ => (t, db)
        | none =>
          match dbFindByName o.case_sensitive db t.name with
          | some r => (toObj r, db)
          | none =>
            let c := dbCreate db t.name false
            (toObj c.1, c.2)
       let q := RelatedManagerTagMixin._ensure_tags_db o rest p.2
       (p.1 :: q.1, q.2)) := rfl

theorem ensure_spec (o : MOpts) (ts : List TagObj) :
    ∀ db : DB, (∀ t ∈ ts, ∀ q, t.pk = some q → (dbGet db q).isSome = true) →
      (∃ l, (RelatedManagerTagMixin._ensure_tags_db o ts db).2.tags = db.tags ++ l)
      ∧ ∀ t2 ∈ (RelatedManagerTagMixin._ensure_tags_db o ts db).1,
          ∃ q, t2.pk = some q
            ∧ (dbGet (RelatedManagerTagMixin._ensure_tags_db o ts db).2 q).isSome = true := by
  induction ts with
  | nil =>
    intro db _
    exact ⟨⟨[], by simp [RelatedManagerTagMixin._ensure_tags_db]⟩,
      fun t2 h => absurd h (by simp [RelatedManagerTagMixin._ensure_tags_db])⟩
  | cons t rest ih =>
    intro db hts
    -- the head resolves to (t2h, dbh); dbh extends db by at most one record
    -- and holds a record for t2h's pk
    have hhead : ∃ t2h dbh l0, (RelatedManagerTagMixin._ensure_tags_db o (t :: rest) db)
          = (t2h :: (RelatedManagerTagMixin._ensure_tags_db o rest dbh).1,
             (RelatedManagerTagMixin._ensure_tags_db o rest dbh).2)
        ∧ dbh.tags = db.tags ++ l0
        ∧ ∃ q, t2h.pk = some q ∧ (dbGet dbh q).isSome = true := by
      cases hpk : t.pk with
      | some q =>
        refine ⟨t, db, [], ?_, by simp, q, hpk, hts t (List.mem_cons_self _ _) q hpk⟩
        rw [ensure_cons, hpk]
      | none =>
        cases hf : dbFindByName o.case_sensitive db t.name with
        | some r =>
          refine ⟨toObj r, db, [], ?_, by simp, r.pk, rfl, ?_⟩
          · rw [ensure_cons, hpk, hf]
          · rw [dbGet_isSome_iff]
            apply List.mem_map.mpr
            refine ⟨r, ?_, rfl⟩
            unfold dbFindByName at hf
            split at hf <;> exact List.mem_of_find?_eq_some hf
        | none =>
          refine ⟨toObj (dbCreate db t.name false).1, (dbCreate db t.name false).2,
            [(dbCreate db t.name false).1], ?_, by simp [dbCreate], db.nextPk, rfl, ?_⟩
          · rw [ensure_cons, hpk, hf]
          · rw [dbGet_isSome_iff]
            apply List.mem_map.mpr
            exact ⟨(dbCreate db t.name false).1, by simp [dbCreate], rfl⟩
    rcases hhead with ⟨t2h, dbh, l0, heq, hext, qh, hqh, hqget⟩
    have hts2 : ∀ t2 ∈ rest, ∀ q, t2.pk = some q → (dbGet dbh q).isSome = true := by
      intro t2 h2 q hq
      have := hts t2 (List.mem_cons_of_mem _ h2) q hq
      cases dbh with
      | mk dtags dnext =>
        simp only at hext
        subst hext
        exact dbGet_mono_append db l0 dnext q this
    rcases ih dbh hts2 with ⟨⟨l1, hl1⟩, hall⟩
    constructor
    · refine ⟨l0 ++ l1, ?_⟩
      rw [heq]
      simp only []
      rw [hl1, hext, List.append_assoc]
    · intro t2 h2
      rw [heq] at h2
      rcases List.mem_cons.mp h2 with h3 | h3
      · subst h3
        refine ⟨qh, hqh, ?_⟩
        rw [heq]
        simp only []
        cases hre : RelatedManagerTagMixin._ensure_tags_db o rest dbh with
        | mk fst snd =>
          rw [hre] at hl1
          simp only at hl1 ⊢
          cases snd with
          | mk stags snext =>
            simp only at hl1
            subst hl1
            exact dbGet_mono_append dbh l1 snext qh hqget
      · rw [heq]
        exact hall t2 h3

theorem tagMem_iff_pk (t : TagObj) (ts : List TagObj) (q : Nat)
    (hpk : t.pk = some q) :
    tagMem t ts = true ↔ some q ∈ ts.map TagObj.pk := by
  unfold tagMem tagEq
  rw [List.any_eq_true]
  constructor
  · intro ⟨u, hu, he⟩
    have : u.pk = t.pk := of_decide_eq_true he
    rw [hpk] at this
    exact List.mem_map.mpr ⟨u, hu, this⟩
  · intro h
    rcases List.mem_map.mp h with ⟨u, hu, he⟩
    exact ⟨u, hu, decide_eq_true (by rw [he, hpk])⟩

theorem mem_map_some_iff (rel : List Nat) (q : Nat) :
    some q ∈ rel.map some ↔ q ∈ rel := by
  constructor
  · intro h
    rcases List.mem_map.mp h with ⟨p, hp, he⟩
    cases he
    exact hp
  · intro h
    exact List.mem_map.mpr ⟨q, h, rfl⟩

theorem add_obj_spec (o : MOpts) (m : RelatedManagerTagMixin.RState)
    (env : RelatedManagerTagMixin.Env) (t : TagObj) (q : Nat)
    (hpk : t.pk = some q) (hnotin : q ∉ env.rel) :
    RelatedManagerTagMixin._add o m env [.obj t] =
        .error (RelatedManagerTagMixin.reload env, env)
      ∨ RelatedManagerTagMixin._add o m env [.obj t] =
        .ok (⟨RelatedManagerTagMixin.relAll env ++ [t], false⟩,
             ⟨dbIncrement env.db q, env.rel ++ [q]⟩) := by
  obtain ⟨tpk, tn, tp⟩ := t
  simp only at hpk
  subst hpk
  unfold RelatedManagerTagMixin._add
  simp only [RelatedManagerTagMixin.convert_add_args]
  split
  · left; rfl
  · right
    simp only [RelatedManagerTagMixin._ensure_tags_db,
      RelatedManagerTagMixin._old_add, RelatedManagerTagMixin.incrementAll,
      RelatedManagerTagMixin.reload, List.foldl_cons, List.foldl_nil]
    simp [hnotin]

theorem save_add_loop_spec (o : MOpts) (ts : List TagObj) :
    ∀ (m : RelatedManagerTagMixin.RState) (env : RelatedManagerTagMixin.Env)
      (m' : RelatedManagerTagMixin.RState) (env' : RelatedManagerTagMixin.Env),
      env.rel.Nodup →
      (∀ q ∈ env.rel, (dbGet env.db q).isSome = true) →
      m.tags.map TagObj.pk = env.rel.map some →
      (∀ t ∈ ts, ∃ q, t.pk = some q ∧ (dbGet env.db q).isSome = true) →
      RelatedManagerTagMixin.save_add_loop o ts m env = .ok (m', env') →
      (env'.rel.Nodup
       ∧ (∀ q ∈ env'.rel, (dbGet env'.db q).isSome = true)
       ∧ m'.tags.map TagObj.pk = env'.rel.map some
       ∧ (∀ p, p ∈ env'.rel ↔ (p ∈ env.rel ∨ (some p) ∈ ts.map TagObj.pk))
       ∧ env'.db.tags.map DBTag.pk = env.db.tags.map DBTag.pk) := by
  induction ts with
  | nil =>
    intro m env m' env' hnd hrel htags _ hok
    unfold RelatedManagerTagMixin.save_add_loop at hok
    cases hok
    exact ⟨hnd, hrel, htags, fun p => by simp, rfl⟩
  | cons t rest ih =>
    intro m env m' env' hnd hrel htags hts hok
    rcases hts t (List.mem_cons_self _ _) with ⟨q, hpk, hq⟩
    unfold RelatedManagerTagMixin.save_add_loop at hok
    by_cases hmem : tagMem t m.tags = true
    · rw [if_pos hmem] at hok
      have hqrel : q ∈ env.rel := by
        have := (tagMem_iff_pk t m.tags q hpk).mp hmem
        rw [htags] at this
        exact (mem_map_some_iff _ _).mp this
      rcases ih m env m' env' hnd hrel htags
        (fun u hu => hts u (List.mem_cons_of_mem _ hu)) hok with
        ⟨h1, h2, h3, h4, h5⟩
      refine ⟨h1, h2, h3, ?_, h5⟩
      intro p
      rw [h4 p]
      constructor
      · intro h
        rcases h with h | h
        · exact Or.inl h
        · exact Or.inr (by simp only [List.map_cons, List.mem_cons]; exact Or.inr h)
      · intro h
        rcases h with h | h
        · exact Or.inl h
        · simp only [List.map_cons, List.mem_cons] at h
          rcases h with h | h
          · left
            rw [hpk] at h
            cases h
            exact hqrel
          · exact Or.inr h
    · rw [if_neg hmem] at hok
      have hnotin : q ∉ env.rel := by
        intro hin
        apply hmem
        apply (tagMem_iff_pk t m.tags q hpk).mpr
        rw [htags]
        exact (mem_map_some_iff _ _).mpr hin
      rcases add_obj_spec o m env t q hpk hnotin with herr | hok2
      · rw [herr] at hok
        cases hok
      · rw [hok2] at hok
        have hrel2 : ∀ p ∈ env.rel ++ [q],
            (dbGet (dbIncrement env.db q) p).isSome = true := by
          intro p hp
          apply dbGet_isSome_of_pks_eq env.db _ (dbIncrement_pks env.db q)
          rcases List.mem_append.mp hp with h | h
          · exact hrel p h
          · simp only [List.mem_singleton] at h
            subst h
            exact hq
        have htags2 : (RelatedManagerTagMixin.relAll env ++ [t]).map TagObj.pk
            = (env.rel ++ [q]).map some := by
          rw [List.map_append, List.map_append, relAll_pks env.rel env.db hrel]
          simp [hpk]
        rcases ih ⟨RelatedManagerTagMixin.relAll env ++ [t], false⟩
          ⟨dbIncrement env.db q, env.rel ++ [q]⟩ m' env'
          (by simp [List.nodup_append, hnd, hnotin])
          hrel2 htags2
          (fun u hu => by
            rcases hts u (List.mem_cons_of_mem _ hu) with ⟨p2, hp2, hg2⟩
            exact ⟨p2, hp2,
              dbGet_isSome_of_pks_eq env.db _ (dbIncrement_pks env.db q) p2 hg2⟩)
          hok with ⟨h1, h2, h3, h4, h5⟩
        refine ⟨h1, h2, h3, ?_, ?_⟩
        · intro p
          rw [h4 p]
          simp only [List.mem_append, List.mem_singleton, List.map_cons,
            List.mem_cons, hpk, List.mem_nil_iff, or_false, Option.some.injEq]
          tauto
        · rw [h5]
          simp only []
          exact dbIncrement_pks env.db q

theorem relAll_pk_isSome (env : RelatedManagerTagMixin.Env) :
    ∀ u ∈ RelatedManagerTagMixin.relAll env, ∃ p, u.pk = some p := by
  intro u hu
  rcases List.mem_filterMap.mp hu with ⟨pk, _, he⟩
  rcases Option.map_eq_some'.mp he with ⟨r, _, he2⟩
  exact ⟨r.pk, by rw [← he2]; rfl⟩

theorem ensure_id (o : MOpts) (ts : List TagObj) :
    ∀ db, (∀ u ∈ ts, ∃ p, u.pk = some p) →
      RelatedManagerTagMixin._ensure_tags_db o ts db = (ts, db) := by
  induction ts with
  | nil => intro db _; rfl
  | cons u rest ih =>
    intro db h
    rcases h u (List.mem_cons_self _ _) with ⟨p, hp⟩
    rw [ensure_cons, hp]
    simp only []
    rw [ih db (fun v hv => h v (List.mem_cons_of_mem _ hv))]

theorem remove_obj_spec (o : MOpts) (m : RelatedManagerTagMixin.RState)
    (env : RelatedManagerTagMixin.Env) (t : TagObj) (q : Nat)
    (hpk : t.pk = some q)
    (hrel : ∀ p ∈ env.rel, (dbGet env.db p).isSome = true) :
    (RelatedManagerTagMixin._remove o m env [.obj t]).2.rel
        = env.rel.filter (fun p => p ≠ q)
    ∧ (RelatedManagerTagMixin._remove o m env [.obj t]).2.db.tags.map DBTag.pk
        = env.db.tags.map DBTag.pk := by
  have hrm_pk : ∀ u ∈ (RelatedManagerTagMixin.relAll env).filter
      (fun u => tagMem u [t]), ∃ p, u.pk = some p := by
    intro u hu
    exact relAll_pk_isSome env u (List.mem_filter.mp hu).1
  have hconv : RelatedManagerTagMixin.convert_rm_args
      [RelatedManagerTagMixin.AddArg.obj t] env.db = [t] := rfl
  have hmemq : ∀ u : TagObj, tagMem u [t] = decide (u.pk = some q) := by
    intro u
    unfold tagMem tagEq
    simp only [List.any_cons, List.any_nil, Bool.or_false, hpk]
    rw [decide_eq_decide]
    exact eq_comm
  have hany_char : ∀ p ∈ env.rel,
      (decide ¬((((RelatedManagerTagMixin.relAll env).filter
          (fun u => tagMem u [t])).any (fun v => v.pk = some p)) = true))
        = decide (p ≠ q) := by
    intro p hp
    by_cases hpq : p = q
    · subst hpq
      have hin : some p ∈ (RelatedManagerTagMixin.relAll env).map TagObj.pk := by
        rw [relAll_pks env.rel env.db hrel]
        exact (mem_map_some_iff _ _).mpr hp
      rcases List.mem_map.mp hin with ⟨u, hu, hue⟩
      have humem : u ∈ (RelatedManagerTagMixin.relAll env).filter
          (fun u => tagMem u [t]) :=
        List.mem_filter.mpr ⟨hu, by rw [hmemq u, hue]; simp⟩
      have hany : ((RelatedManagerTagMixin.relAll env).filter
          (fun u => tagMem u [t])).any (fun v => v.pk = some p) = true :=
        List.any_eq_true.mpr ⟨u, humem, decide_eq_true hue⟩
      rw [hany]
      simp
    · have hany : ((RelatedManagerTagMixin.relAll env).filter
          (fun u => tagMem u [t])).any (fun v => v.pk = some p) = false := by
        cases ha : ((RelatedManagerTagMixin.relAll env).filter
            (fun u => tagMem u [t])).any (fun v => v.pk = some p) with
        | false => rfl
        | true =>
          exfalso
          rcases List.any_eq_true.mp ha with ⟨v, hv, hvp⟩
          have hvq := (List.mem_filter.mp hv).2
          rw [hmemq v] at hvq
          have h1 : v.pk = some q := of_decide_eq_true hvq
          have h2 : v.pk = some p := of_decide_eq_true hvp
          rw [h1] at h2
          cases h2
          exact hpq rfl
      rw [hany]
      simp [hpq]
  constructor
  · unfold RelatedManagerTagMixin._remove
    simp only [hconv, RelatedManagerTagMixin.reload]
    rw [ensure_id o _ env.db hrm_pk]
    unfold RelatedManagerTagMixin._old_remove
    simp only []
    exact List.filter_congr hany_char
  · unfold RelatedManagerTagMixin._remove
    simp only [hconv, RelatedManagerTagMixin.reload]
    rw [ensure_id o _ env.db hrm_pk]
    unfold RelatedManagerTagMixin._old_remove
    simp only []
    exact decrementAll_pks _ env.db

theorem save_remove_loop_spec (o : MOpts) (snap : List TagObj) :
    ∀ (keep : List TagObj) (m : RelatedManagerTagMixin.RState)
      (env : RelatedManagerTagMixin.Env),
      env.rel.Nodup →
      (∀ p ∈ env.rel, (dbGet env.db p).isSome = true) →
      (∀ u ∈ snap, ∃ q, u.pk = some q) →
      ((RelatedManagerTagMixin.save_remove_loop o snap keep m env).2.rel.Nodup
       ∧ (∀ p ∈ (RelatedManagerTagMixin.save_remove_loop o snap keep m env).2.rel,
           (dbGet (RelatedManagerTagMixin.save_remove_loop o snap keep m env).2.db
             p).isSome = true)
       ∧ (RelatedManagerTagMixin.save_remove_loop o snap keep m
           env).2.db.tags.map DBTag.pk = env.db.tags.map DBTag.pk
       ∧ (∀ p, p ∈ (RelatedManagerTagMixin.save_remove_loop o snap keep m
             env).2.rel ↔
           (p ∈ env.rel ∧ (some p ∈ snap.map TagObj.pk →
             some p ∈ keep.map TagObj.pk)))) := by
  induction snap with
  | nil =>
    intro keep m env hnd hrel _
    unfold RelatedManagerTagMixin.save_remove_loop
    exact ⟨hnd, hrel, rfl, fun p => by simp⟩
  | cons u rest ih =>
    intro keep m env hnd hrel hsnap
    rcases hsnap u (List.mem_cons_self _ _) with ⟨q, hq⟩
    unfold RelatedManagerTagMixin.save_remove_loop
    by_cases hkeep : tagMem u keep = true
    · rw [if_pos hkeep]
      have hkq : some q ∈ keep.map TagObj.pk := (tagMem_iff_pk u keep q hq).mp hkeep
      rcases ih keep m env hnd hrel
        (fun v hv => hsnap v (List.mem_cons_of_mem _ hv)) with ⟨h1, h2, h3, h4⟩
      refine ⟨h1, h2, h3, ?_⟩
      intro p
      rw [h4 p]
      simp only [List.map_cons, List.mem_cons, hq]
      constructor
      · intro ⟨ha, hb⟩
        refine ⟨ha, ?_⟩
        intro hc
        rcases hc with hc | hc
        · rw [hc]; exact hkq
        · exact hb hc
      · intro ⟨ha, hb⟩
        exact ⟨ha, fun hc => hb (Or.inr hc)⟩
    · rw [if_neg hkeep]
      have hknq : some q ∉ keep.map TagObj.pk := by
        intro hk
        exact hkeep ((tagMem_iff_pk u keep q hq).mpr hk)
      rcases remove_obj_spec o m env u q hq hrel with ⟨hr1, hr2⟩
      have hnd2 : (RelatedManagerTagMixin._remove o m env
          [RelatedManagerTagMixin.AddArg.obj u]).2.rel.Nodup := by
        rw [hr1]
        exact hnd.filter _
      have hrel2 : ∀ p ∈ (RelatedManagerTagMixin._remove o m env
          [RelatedManagerTagMixin.AddArg.obj u]).2.rel,
          (dbGet (RelatedManagerTagMixin._remove o m env
            [RelatedManagerTagMixin.AddArg.obj u]).2.db p).isSome = true := by
        intro p hp
        rw [hr1] at hp
        apply dbGet_isSome_of_pks_eq env.db _ hr2
        exact hrel p (List.mem_filter.mp hp).1
      rcases ih keep _ _ hnd2 hrel2
        (fun v hv => hsnap v (List.mem_cons_of_mem _ hv)) with ⟨h1, h2, h3, h4⟩
      refine ⟨h1, h2, by rw [h3, hr2], ?_⟩
      intro p
      rw [h4 p, hr1]
      have hmf : p ∈ env.rel.filter (fun p => p ≠ q) ↔ (p ∈ env.rel ∧ p ≠ q) := by
        rw [List.mem_filter]
        simp
      rw [hmf]
      simp only [List.map_cons, List.mem_cons, hq, Option.some.injEq]
      constructor
      · intro ⟨⟨ha, hb⟩, hc⟩
        refine ⟨ha, ?_⟩
        intro hd
        rcases hd with hd | hd
        · exact absurd hd hb
        · exact hc hd
      · intro ⟨ha, hb⟩
        have hpq : p ≠ q := by
          intro he
          subst he
          exact hknq (by rw [← hq] at hb ⊢; exact hb (Or.inl rfl))
        exact ⟨⟨ha, hpq⟩, fun hd => hb (Or.inr hd)⟩

theorem dbGet_mono_tags (db db2 : DB) (l : List DBTag)
    (h : db2.tags = db.tags ++ l) (p : Nat)
    (hg : (dbGet db p).isSome = true) : (dbGet db2 p).isSome = true := by
  rw [dbGet_isSome_iff] at hg ⊢
  rw [h]
  simp only [List.map_append, List.mem_append]
  exact Or.inl hg

/-- C1: `save` of the related manager. With neither a change nor force it
returns at once, leaving the manager, the relation and the database
untouched. Otherwise, when it returns normally, every desired tag has been
ensured to exist in the database, the internal tag list is exactly the
ensured (database-backed) desired list, `changed` is cleared, and the
relation holds exactly the pks of the desired tags: the desired tags not
already persisted were added and the persisted tags no longer desired were
removed. -/
theorem C1_save_reconciles (o : MOpts) (force : Bool)
    (m : RelatedManagerTagMixin.RState) (env : RelatedManagerTagMixin.Env)
    (hnd : env.rel.Nodup)
    (hrel : ∀ q ∈ env.rel, (dbGet env.db q).isSome = true)
    (htags : ∀ t ∈ m.tags, ∀ q, t.pk = some q → (dbGet env.db q).isSome = true) :
    (m.changed = false → force = false →
      RelatedManagerTagMixin.save o force m env = .ok (m, env))
    ∧ (∀ m' env', RelatedManagerTagMixin.save o force m env = .ok (m', env') →
        (m.changed = true ∨ force = true) →
        (m'.changed = false
         ∧ m'.tags = (RelatedManagerTagMixin._ensure_tags_db o m.tags env.db).1
         ∧ (∀ t ∈ m'.tags, ∃ q, t.pk = some q ∧ (dbGet env'.db q).isSome = true)
         ∧ (∀ p, p ∈ env'.rel ↔ some p ∈ m'.tags.map TagObj.pk))) := by
  constructor
  · intro h1 h2
    unfold RelatedManagerTagMixin.save
    rw [if_pos ⟨h1, h2⟩]
  · intro m' env' hok hcf
    have hcond : ¬(m.changed = false ∧ force = false) := by
      rcases hcf with h | h <;> simp [h]
    unfold RelatedManagerTagMixin.save at hok
    rw [if_neg hcond] at hok
    simp only [] at hok
    rcases ensure_spec o m.tags env.db htags with ⟨⟨l, hl⟩, hens⟩
    have hrel1 : ∀ q ∈ env.rel,
        (dbGet (RelatedManagerTagMixin._ensure_tags_db o m.tags env.db).2 q).isSome
          = true :=
      fun q hq => dbGet_mono_tags env.db _ l hl q (hrel q hq)
    have htags1 : (RelatedManagerTagMixin.reload
        ⟨(RelatedManagerTagMixin._ensure_tags_db o m.tags env.db).2,
          env.rel⟩).tags.map TagObj.pk = env.rel.map some :=
      relAll_pks env.rel _ hrel1
    split at hok
    · cases hok
    · rename_i p2 m2 env2 heq
      cases hok
      rcases save_add_loop_spec o _ _
        ⟨(RelatedManagerTagMixin._ensure_tags_db o m.tags env.db).2, env.rel⟩
        m2 env2 hnd hrel1 htags1 hens heq with ⟨a1, a2, a3, a4, a5⟩
      have hsnap : ∀ u ∈ m2.tags, ∃ q, u.pk = some q := by
        intro u hu
        have hm : u.pk ∈ m2.tags.map TagObj.pk := List.mem_map_of_mem _ hu
        rw [a3] at hm
        rcases List.mem_map.mp hm with ⟨p, _, he⟩
        exact ⟨p, he.symm⟩
      rcases save_remove_loop_spec o m2.tags _ m2 env2 a1 a2 hsnap with
        ⟨r1, r2, r3, r4⟩
      refine ⟨rfl, rfl, ?_, ?_⟩
      · intro t ht
        rcases hens t ht with ⟨q, hq, hg⟩
        refine ⟨q, hq, ?_⟩
        apply dbGet_isSome_of_pks_eq
          (RelatedManagerTagMixin._ensure_tags_db o m.tags env.db).2 _ ?_ q hg
        rw [r3]
        exact a5
      · intro p
        rw [r4 p]
        have hm2 : some p ∈ m2.tags.map TagObj.pk ↔ p ∈ env2.rel := by
          rw [a3]
          exact mem_map_some_iff _ _
        constructor
        · intro ⟨hx, hy⟩
          exact hy (hm2.mpr hx)
        · intro h
          exact ⟨(a4 p).mpr (Or.inr h), fun _ => h⟩

/-- C1 witness: desired tags "b" (persisted) and "c" (unsaved) against
persisted {"a", "b"}: after `save`, "c" is created and related, "a" is
unrelated, the internal list is the ensured desired list and `changed` is
clear. -/
theorem C1_save_reconciles_witness :
    ((⟨[⟨some 2, "b", false⟩, ⟨some 3, "c", false⟩], false⟩ :
        RelatedManagerTagMixin.RState).changed = false)
    ∧ (1 ∈ ([2, 3] : List Nat) ↔ some 1 ∈
        ([⟨some 2, "b", false⟩, ⟨some 3, "c", false⟩] : List TagObj).map TagObj.pk)
    ∧ (3 ∈ ([2, 3] : List Nat) ↔ some 3 ∈
        ([⟨some 2, "b", false⟩, ⟨some 3, "c", false⟩] : List TagObj).map TagObj.pk) := by
  have h := (C1_save_reconciles ⟨true, false, 0⟩ false
    ⟨[⟨some 2, "b", false⟩, ⟨none, "c", false⟩], true⟩
    ⟨⟨[⟨1, "a", false, 1⟩, ⟨2, "b", false, 1⟩], 3⟩, [1, 2]⟩
    (by decide) (by decide) (by decide)).2
    ⟨[⟨some 2, "b", false⟩, ⟨some 3, "c", false⟩], false⟩
    ⟨⟨[⟨1, "a", false, 0⟩, ⟨2, "b", false, 1⟩, ⟨3, "c", false, 1⟩], 4⟩, [2, 3]⟩
    (by rfl) (Or.inl rfl)
  exact ⟨h.1, h.2.2.2 1, h.2.2.2 3⟩

/-- C9 witness: an unchanged manager over an empty association raises. -/
theorem C9_pre_save_required_error_witness :
    SingleTagManager.pre_save_handler ⟨true, false, 0⟩ true
        ⟨false, none, none, none, none⟩ ⟨[], 0⟩ =
      .error (⟨false, none, none, none, none⟩, ⟨[], 0⟩) :=
  C9_pre_save_required_error ⟨true, false, 0⟩ ⟨false, none, none, none, none⟩
    ⟨[], 0⟩ (by decide)
